import Mathlib

/-!
Verification of the `hashmap` rclone backend: a metadata-translation layer
presenting a hierarchical path namespace over a flat, string-keyed object
store.  The definitions below are a shallow embedding of the Go sources
(`backend/hashmap/dir.go`, `backend/hashmap/entries.go` and the companion
files defining `Fs.put`, `Fs.NewObject`, `dirEntry.fillFiles`,
`dirMap.newDirEntry`, `dirMap.removeEntry`, `dirMap.write`): the in-memory
directory tree with its two lookup indices, the lazily loaded per-directory
file tables, the persisted line-oriented encodings, and the mutation
algorithms (Mkdir, Rmdir, Purge, DirMove, put, NewObject, ChangeNotify).

The backing object store is represented by a pure oracle (`Base`) giving the
outcome of every primitive call, and each operation additionally returns the
trace of backing-store calls it makes (`Act`), so that theorems can speak
about which keys were written, moved or purged and with what content.

Go pointers are modelled by an arena of numeric entry ids; Go slices that are
mutated while being iterated (the `DirMove` recursion ranges over
`entry.Children` while `removeEntry` shifts the same backing array in place)
are modelled by keeping each entry's backing buffer `childBuf` together with
the live length `childLen`, exactly mirroring in-place `append` shifting.
Recursions whose termination Go does not guarantee structurally are given
explicit fuel.
-/

namespace Hashmap

/-! ### Association lists (Go `map` values) -/

/-- Lookup in an association list, Go `m[k]`. -/
def alookup {κ α : Type} [DecidableEq κ] (k : κ) : List (κ × α) → Option α
  | [] => none
  | (k', v) :: t => if k' = k then some v else alookup k t

/-- Insert/overwrite in an association list, Go `m[k] = v`. -/
def ainsert {κ α : Type} [DecidableEq κ] (k : κ) (v : α) : List (κ × α) → List (κ × α)
  | [] => [(k, v)]
  | (k', v') :: t => if k' = k then (k, v) :: t else (k', v') :: ainsert k v t

/-- Remove a key from an association list, Go `delete(m, k)`. -/
def aerase {κ α : Type} [DecidableEq κ] (k : κ) (l : List (κ × α)) : List (κ × α) :=
  l.filter (fun kv => kv.1 ≠ k)

/-- The keys of an association list. -/
def akeys {κ α : Type} (l : List (κ × α)) : List κ := l.map (·.1)

/-! ### String primitives

Kernel-computable counterparts of the Go `strings`/byte-wise operations,
defined over the character list of a `String`. -/

/-- Tests that a character is not the path separator. -/
def notSlash (c : Char) : Bool := c != '/'

/-- Tests that a character is not a newline. -/
def notNL (c : Char) : Bool := c != '\n'

/-- Tests that a character is not a space. -/
def notSpace (c : Char) : Bool := c != ' '

/-- Whether a name contains an embedded newline, Go
`strings.Contains(s, "\n")`. -/
def hasNL (s : String) : Bool := s.data.any (· == '\n')

/-- Whether the first list begins with the second one. -/
def beginsWith : List Char → List Char → Bool
  | _, [] => true
  | [], _ :: _ => false
  | c :: cs, d :: ds => c == d && beginsWith cs ds

/-- Go `strings.TrimPrefix(s, pre)`. -/
def goTrimPref (s pre : String) : String :=
  if beginsWith s.data pre.data then String.mk (s.data.drop pre.data.length) else s

/-- Strict byte-wise (= code-point-wise on well-formed UTF-8) comparison of
strings, the order used by Go's `sort.Strings`. -/
def strLtB : List Char → List Char → Bool
  | [], [] => false
  | [], _ :: _ => true
  | _ :: _, [] => false
  | c :: cs, d :: ds =>
    if c.toNat < d.toNat then true
    else if d.toNat < c.toNat then false
    else strLtB cs ds

/-- Byte-wise `≤` on strings. -/
def strLeB (a b : String) : Bool := !(strLtB b.data a.data)

/-- Insert a string into an already sorted list. -/
def insertSorted (x : String) : List String → List String
  | [] => [x]
  | y :: ys => if strLeB x y then x :: y :: ys else y :: insertSorted x ys

/-- Ascending sort of names, Go `sort.Strings`. -/
def sortStr : List String → List String
  | [] => []
  | x :: xs => insertSorted x (sortStr xs)

/-- Split at every `'/'`, Go `strings.Split(s, "/")`. -/
def splitSlashAux : List Char → List Char → List (List Char)
  | [], acc => [acc.reverse]
  | c :: cs, acc =>
    if c = '/' then acc.reverse :: splitSlashAux cs [] else splitSlashAux cs (c :: acc)

/-- Split a string at every `'/'`. -/
def splitSlash (s : String) : List String :=
  (splitSlashAux s.data []).map String.mk

/-- The complete `'\n'`-terminated lines of a character stream; a trailing
chunk with no terminating newline is discarded, as the readers'
`bufio.ReadString('\n')` loops do at `io.EOF`. -/
def splitNLAux : List Char → List Char → List (List Char)
  | [], _ => []
  | c :: cs, acc =>
    if c = '\n' then acc.reverse :: splitNLAux cs [] else splitNLAux cs (c :: acc)

/-- The complete lines of a string. -/
def splitNL (cs : List Char) : List (List Char) := splitNLAux cs []

/-! ### Go `path` package: `Split`, `Clean`, `Join` -/

/-- Go `path.Split(p)` followed by `strings.TrimSuffix(dir, "/")`: the parent
path (everything before the final slash) and the base name (everything after
it). -/
def splitPath (p : String) : String × String :=
  let rev := p.data.reverse
  (String.mk (((rev.dropWhile notSlash).drop 1).reverse),
   String.mk ((rev.takeWhile notSlash).reverse))

/-- The parent path of `p` (first component of `splitPath`). -/
def parentOf (p : String) : String := (splitPath p).1

/-- The base name of `p` (second component of `splitPath`). -/
def baseOf (p : String) : String := (splitPath p).2

theorem length_dropWhile_le {α : Type} (q : α → Bool) (l : List α) :
    (l.dropWhile q).length ≤ l.length := by
  induction l with
  | nil => simp
  | cons a t ih =>
    by_cases h : q a
    · rw [List.dropWhile_cons_of_pos h]
      exact Nat.le_succ_of_le ih
    · rw [List.dropWhile_cons_of_neg h]

theorem parentOf_length_lt (p : String) (hp : p ≠ "") : (parentOf p).length < p.length := by
  have hdata : p.data ≠ [] := by
    intro h
    exact hp (by cases p with | mk d => simpa using congrArg String.mk h)
  have hpos : 0 < p.data.length := List.length_pos.mpr hdata
  have hle : (p.data.reverse.dropWhile notSlash).length ≤ p.data.length := by
    calc (p.data.reverse.dropWhile notSlash).length ≤ p.data.reverse.length :=
          length_dropWhile_le _ _
      _ = p.data.length := List.length_reverse _
  have h1 : (parentOf p).length = ((p.data.reverse.dropWhile notSlash).drop 1).length := by
    simp [parentOf, splitPath, String.length]
  have h2 : p.length = p.data.length := rfl
  rw [h1, h2, List.length_drop]
  omega

/-- One step of Go `path.Clean`'s element processing: skip empty and `"."`
elements, let `".."` pop the last real element (or accumulate / vanish at a
root), push anything else.  `acc` holds the processed elements in reverse. -/
def cleanElems (rooted : Bool) : List String → List String → List String
  | [], acc => acc.reverse
  | e :: rest, acc =>
    if e = "" ∨ e = "." then cleanElems rooted rest acc
    else if e = ".." then
      match acc with
      | [] => if rooted then cleanElems rooted rest [] else cleanElems rooted rest [".."]
      | a :: tl =>
        if a = ".." then cleanElems rooted rest (".." :: a :: tl)
        else cleanElems rooted rest tl
    else cleanElems rooted rest (e :: acc)

/-- Go `path.Clean`. -/
def goClean (p : String) : String :=
  if p = "" then "."
  else
    let rooted := beginsWith p.data ['/']
    let body := String.intercalate "/" (cleanElems rooted (splitSlash p) [])
    if rooted then "/" ++ body
    else if body = "" then "." else body

/-- Go `path.Join(elems...)`: drop empty elements; if none remain the result
is `""` (no cleaning), otherwise `Clean` of the slash-joined elements. -/
def goJoinList (elems : List String) : String :=
  let ne := elems.filter (· ≠ "")
  if ne.isEmpty then "" else goClean (String.intercalate "/" ne)

/-- Go `path.Join(a, b)`. -/
def goJoin (a b : String) : String := goJoinList [a, b]

/-! ### Errors and backing-store oracle -/

/-- Errors surfaced by the backend: the rclone sentinel errors, the backend's
own message errors, wrapping via `fmt.Errorf("...: %w", err)`, and opaque
errors coming from the base store (`base n`). -/
inductive Err : Type where
  | dirNotFound
  | objNotFound
  | isDir
  | dirExists
  | dirNotEmpty
  | cantPurge
  | cantDirMove
  | cantCopy
  | invalidName (name : String)
  | notLoaded
  | malformedEntry (line : String)
  | outOfFuel
  | nilEntry
  | base (n : Nat)
  | wrap (tag : String) (e : Err)
deriving DecidableEq, Repr

/-- Result of reading a directory's `map` object from the base store:
absent (`fs.ErrorObjectNotFound` from `NewObject`), an error from
`NewObject`, an error from `Open`, or the object's full content. -/
inductive ReadRes : Type where
  | notFound
  | errNew (e : Err)
  | errOpen (e : Err)
  | content (s : String)

/-- The backing store as a pure oracle: for each primitive call, its outcome.
Capability flags model `Features()`. -/
structure Base : Type where
  canEmptyDirs : Bool
  canPurge : Bool
  canDirMove : Bool
  readMap : String → ReadRes
  mkdirRes : String → Option Err
  putRes : String → Option Err
  purgeRes : String → Option Err
  removeRes : String → Option Err
  newObjRes : String → Option Err
  moveRes : String → String → Option Err
  canCopy : Bool := true
  copyRes : String → String → Option Err := fun _ _ => none

/-- A backing-store call made by an operation, recorded in traces. -/
inductive Act : Type where
  | readMap (key : String)
  | mkdir (key : String)
  | put (key content : String)
  | purge (key : String)
  | move (srcKey dstKey : String)
  | newObj (key : String)
  | removeObj (key : String)
  | copyObj (srcKey dstKey : String)
deriving DecidableEq, Repr

/-- A computation that either runs to a value or hits a Go `panic` /
nil-pointer dereference. -/
inductive Outcome (α : Type) : Type where
  | crashed (msg : String)
  | ran (a : α)
deriving DecidableEq, Repr

/-! ### Data model: `dirEntry` arena and `dirMap` -/

/-- One directory node (`dirEntry`).  `parent` is `none` exactly for the
root; `childBuf`/`childLen` model the Go slice `Children` together with its
backing array (`Children = childBuf.take childLen`); `files` is the lazily
loaded filename-to-file-key table (`none` = not loaded). -/
structure EntryData : Type where
  path : String
  hash : String
  parent : Option Nat
  childBuf : List Nat
  childLen : Nat
  files : Option (List (String × String))
deriving DecidableEq, Repr

/-- The directory map (`dirMap`): an arena of entries addressed by id plus
the two lookup indices, by logical path and by storage key. -/
structure DirMapSt : Type where
  arena : List (Nat × EntryData)
  nextId : Nat
  pathIdx : List (String × Nat)
  hashIdx : List (String × Nat)
deriving DecidableEq, Repr

/-- The entry stored under id `i`. -/
def aget (i : Nat) (dm : DirMapSt) : Option EntryData := alookup i dm.arena

/-- Overwrite the entry stored under id `i`. -/
def aset (i : Nat) (e : EntryData) (dm : DirMapSt) : DirMapSt :=
  { dm with arena := ainsert i e dm.arena }

/-- The live `Children` slice of entry `i`. -/
def childIds (dm : DirMapSt) (i : Nat) : List Nat :=
  match aget i dm with
  | none => []
  | some e => e.childBuf.take e.childLen

/-- The storage key of arena entry `eid`. -/
def hashAt (dm : DirMapSt) (eid : Nat) : String := ((aget eid dm).map (·.hash)).getD ""

/-- The logical path of arena entry `eid`. -/
def pathAt (dm : DirMapSt) (eid : Nat) : String := ((aget eid dm).map (·.path)).getD ""

/-- The entry-registration tail of `dirMap.newDirEntry`: allocate the node
(`files` unloaded, no children), store it in both indices and append it to
the parent's `Children` (the in-place `append` writes at index `childLen`,
so the stale tail beyond the live length is dropped). -/
def registerEntry (hasher : String → String) (dm1 : DirMapSt) (p : String)
    (parent? : Option Nat) : DirMapSt :=
  let hashed := hasher p
  let eid := dm1.nextId
  let e : EntryData := ⟨p, hashed, parent?, [], 0, none⟩
  let dm2 : DirMapSt :=
    { arena := ainsert eid e dm1.arena
      nextId := eid + 1
      pathIdx := ainsert p eid dm1.pathIdx
      hashIdx := ainsert hashed eid dm1.hashIdx }
  match parent? with
  | none => dm2
  | some pid =>
    match aget pid dm2 with
    | none => dm2
    | some pe =>
      aset pid
        { pe with childBuf := pe.childBuf.take pe.childLen ++ [eid]
                  childLen := pe.childLen + 1 } dm2

/-- The body of `dirMap.newDirEntry`, with the recursion on the parent path
bounded by fuel (the wrapper supplies `p.length + 1`, which
`parentOf_length_lt` shows can never run out). -/
def newDirEntryAux (hasher : String → String) : Nat → DirMapSt → String → DirMapSt
  | 0, dm, _ => dm
  | fuel + 1, dm, p =>
    if (alookup p dm.pathIdx).isSome then dm
    else if p = "" then registerEntry hasher dm p none
    else
      let pp := parentOf p
      match alookup pp dm.pathIdx with
      | some pid => registerEntry hasher dm p (some pid)
      | none =>
        let dm' := newDirEntryAux hasher fuel dm pp
        registerEntry hasher dm' p (alookup pp dm'.pathIdx)

/-- `dirMap.newDirEntry` (the revision with the idempotency check, kept for
`DirMove` where children are moved first): create the entry for
`overlayPath`, recursively creating missing parents, register it in both
indices and append it to the parent's `Children`. -/
def newDirEntry (hasher : String → String) (dm : DirMapSt) (p : String) : DirMapSt :=
  newDirEntryAux hasher (p.length + 1) dm p

/-- `newDirMap`: the empty directory map, holding only the root entry. -/
def newDirMap (hasher : String → String) : DirMapSt :=
  newDirEntry hasher ⟨[], 0, [], []⟩ ""

/-- `dirMap.removeEntry`: unlink the entry from its parent's `Children`
(shifting the shared backing array in place, as Go's
`append(ch[:idx], ch[idx+1:]...)` does) and delete it from both indices.
Crashes on the root (`panic("cannot remove root directory")`) and when the
entry is missing from its parent's `Children` (`panic("inconsistent internal
tree: ...")`). -/
def removeEntry (dm : DirMapSt) (p : String) : Outcome DirMapSt :=
  match alookup p dm.pathIdx with
  | none => .ran dm
  | some eid =>
    match aget eid dm with
    | none => .ran dm
    | some e =>
      match e.parent with
      | none => .crashed "cannot remove root directory"
      | some pid =>
        match aget pid dm with
        | none => .ran dm
        | some pe =>
          let children := pe.childBuf.take pe.childLen
          match children.indexOf? eid with
          | none => .crashed "inconsistent internal tree"
          | some idx =>
            let newBuf := children.eraseIdx idx ++ pe.childBuf.drop (pe.childLen - 1)
            let dm1 := aset pid { pe with childBuf := newBuf, childLen := pe.childLen - 1 } dm
            .ran { dm1 with pathIdx := aerase p dm1.pathIdx
                            hashIdx := aerase e.hash dm1.hashIdx }

/-! ### The persisted line format and its parser

Both the root index and the per-directory file indices are line files
`"<key> <name>\n"`.  The readers consume complete `'\n'`-terminated lines
(`bufio.ReadString('\n')` with a trailing unterminated chunk discarded at
`io.EOF`), skip empty lines, and split each line at the first space
(`strings.SplitN(entry, " ", 2)`), refusing to load on a line with no
space. -/

/-- Parse one line: `none` means the empty line is skipped; otherwise the
line splits at its first space into `(key, name)`, or is malformed. -/
def parseLine (l : List Char) : Option (Except Err (String × String)) :=
  if l = [] then none
  else
    match l.dropWhile notSpace with
    | [] => some (.error (.malformedEntry (String.mk l)))
    | _ :: rest => some (.ok (String.mk (l.takeWhile notSpace), String.mk rest))

/-- Parse a list of lines, returning the pairs accepted before the first
malformed line together with that error, if any.  (The callers differ in
what they do with the partial prefix.) -/
def parseAcc : List (List Char) → List (String × String) × Option Err
  | [] => ([], none)
  | l :: ls =>
    match parseLine l with
    | none => parseAcc ls
    | some (.error e) => ([], some e)
    | some (.ok pr) =>
      let (prs, e?) := parseAcc ls
      (pr :: prs, e?)

/-- Fold a parsed pair list into a Go map (later lines overwrite earlier
ones, as `d.files[split[1]] = split[0]` does). -/
def buildAssoc (prs : List (String × String)) : List (String × String) :=
  prs.foldl (fun m pr => ainsert pr.2 pr.1 m) []

/-! ### Per-directory file index: `fillFiles`, `Files`, `write` -/

/-- `dirEntry.fillFiles`: lazily load the file table from the base object
`<dirHash>/map`.  `NotFound` means an empty, not-yet-materialized directory;
on any other error the deferred reset leaves `files = nil` so the next access
retries. -/
def fillFiles (b : Base) (e : EntryData) : Except Err EntryData × List Act :=
  if e.files.isSome then (.ok e, [])
  else
    let key := goJoin e.hash "map"
    match b.readMap key with
    | .notFound => (.ok { e with files := some [] }, [.readMap key])
    | .errNew err => (.error err, [.readMap key])
    | .errOpen err => (.error (.wrap "error opening map file" err), [.readMap key])
    | .content s =>
      match parseAcc (splitNL s.data) with
      | (_, some err) => (.error err, [.readMap key])
      | (prs, none) => (.ok { e with files := some (buildAssoc prs) }, [.readMap key])

/-- `dirEntry.Files` (current revision): `fillFiles` then return the table. -/
def Files (b : Base) (e : EntryData) :
    Except Err (List (String × String)) × EntryData × List Act :=
  match fillFiles b e with
  | (.error err, tr) => (.error err, e, tr)
  | (.ok e', tr) => (.ok (e'.files.getD []), e', tr)

/-- `dirEntry.Files` as in `backend/hashmap/entries.go` (the earlier
revision without the deferred reset): `d.files` is assigned an empty map
before the read, and is left assigned when the read or parse fails, so a
failed load stays cached. -/
def FilesOld (b : Base) (e : EntryData) :
    Except Err (List (String × String)) × EntryData × List Act :=
  match e.files with
  | some fs => (.ok fs, e, [])
  | none =>
    let key := goJoin e.hash "map"
    match b.readMap key with
    | .notFound => (.ok [], { e with files := some [] }, [.readMap key])
    | .errNew err => (.error err, { e with files := some [] }, [.readMap key])
    | .errOpen err =>
      (.error (.wrap "error opening map file" err), { e with files := some [] }, [.readMap key])
    | .content s =>
      match parseAcc (splitNL s.data) with
      | (prs, some err) => (.error err, { e with files := some (buildAssoc prs) }, [.readMap key])
      | (prs, none) => (.ok (buildAssoc prs), { e with files := some (buildAssoc prs) }, [.readMap key])

/-- Load the file table of the arena entry `eid`, caching the result in the
directory map (`Files` on a tree node). -/
def loadFilesAt (b : Base) (dm : DirMapSt) (eid : Nat) :
    Except Err (List (String × String)) × DirMapSt × List Act :=
  match aget eid dm with
  | none => (.error .nilEntry, dm, [])
  | some e =>
    match fillFiles b e with
    | (.error err, tr) => (.error err, dm, tr)
    | (.ok e', tr) => (.ok (e'.files.getD []), aset eid e' dm, tr)

/-- `dirEntry.write`'s serialized file table: one line
`"<fileKey> <filename>\n"` per file, sorted ascending by filename. -/
def dirEntryWriteContent (e : EntryData) : String :=
  let fs := e.files.getD []
  String.join ((sortStr (akeys fs)).map (fun n =>
    (alookup n fs).getD "" ++ " " ++ n ++ "\n"))

/-- `dirEntry.write`: put the serialized file table at `<dirHash>/map`;
fails when the table is not loaded. -/
def dirEntryWrite (b : Base) (e : EntryData) : Except Err Unit × List Act :=
  match e.files with
  | none => (.error .notLoaded, [])
  | some _ =>
    let key := goJoin e.hash "map"
    let content := dirEntryWriteContent e
    match b.putRes key with
    | some err => (.error err, [.put key content])
    | none => (.ok (), [.put key content])

/-! ### Root index: `dirMap.write` and `loadDirectoryMap` -/

/-- The serialized root index: one line `"<storageKey> <logicalPath>\n"` per
entry, sorted ascending by logical path. -/
def dirMapWriteContent (dm : DirMapSt) : String :=
  String.join ((sortStr (akeys dm.pathIdx)).map (fun p =>
    (match alookup p dm.pathIdx with
     | none => ""
     | some eid => (aget eid dm).map (·.hash) |>.getD "") ++ " " ++ p ++ "\n"))

/-- `dirMap.write`: put the serialized root index at key `"map"`. -/
def dirMapWrite (b : Base) (dm : DirMapSt) : Option Err × List Act :=
  (b.putRes "map", [.put "map" (dirMapWriteContent dm)])

/-- `loadDirectoryMap`: parse the root index and replay `newDirEntry` on the
logical-path column of every entry, starting from the fresh map. -/
def loadDirectoryMap (hasher : String → String) (content : String) :
    Except Err DirMapSt :=
  match parseAcc (splitNL content.data) with
  | (_, some err) => .error err
  | (prs, none) => .ok (prs.foldl (fun dm pr => newDirEntry hasher dm pr.2) (newDirMap hasher))

/-- The `(storageKey, logicalPath)` pairs catalogued by a directory map. -/
def pairs (dm : DirMapSt) : List (String × String) :=
  dm.pathIdx.filterMap (fun kv => (aget kv.2 dm).map (fun e => (e.hash, kv.1)))

/-! ### Path translation and the operations on `Fs` -/

/-- The state of one `Fs` instance: its hash function, its configured root
and the in-memory directory map.  The base store is passed separately as the
oracle `Base`. -/
structure FsSt : Type where
  hasher : String → String
  root : String
  dirMap : DirMapSt

/-- `Fs.toHash`: split the remote into parent and leaf, join the parent onto
the `Fs` root and look it up in the path index; the file key is the hash of
the leaf alone.  Returns `none` when the parent directory is not indexed
(the file key is computed either way, mirroring the Go return values). -/
def toHash (f : FsSt) (remote : String) : Option (Nat × String) × String :=
  let (parent, base) := splitPath remote
  let parent := goJoin f.root parent
  let fileHash := f.hasher base
  match alookup parent f.dirMap.pathIdx with
  | none => (none, fileHash)
  | some eid => (some (eid, fileHash), fileHash)

/-- `Fs.Mkdir`: no-op if the joined path is already indexed; reject a path
containing a newline; otherwise create the tree entry, create the backing
container when the base can hold empty directories, and persist the root
index. -/
def Mkdir (b : Base) (f : FsSt) (dir : String) : Except Err Unit × FsSt × List Act :=
  let dir := goJoin f.root dir
  if (alookup dir f.dirMap.pathIdx).isSome then (.ok (), f, [])
  else if hasNL dir then (.error (.invalidName dir), f, [])
  else
    let dm1 := newDirEntry f.hasher f.dirMap dir
    let f1 := { f with dirMap := dm1 }
    let ehash :=
      match alookup dir dm1.pathIdx with
      | none => ""
      | some eid => ((aget eid dm1).map (·.hash)).getD ""
    let finish (tr : List Act) : Except Err Unit × FsSt × List Act :=
      let (w, wtr) := dirMapWrite b dm1
      match w with
      | some err => (.error err, f1, tr ++ wtr)
      | none => (.ok (), f1, tr ++ wtr)
    if b.canEmptyDirs then
      match b.mkdirRes ehash with
      | some err => (.error err, f1, [.mkdir ehash])
      | none => finish [.mkdir ehash]
    else finish []

/-- `Fs.Rmdir`: `ErrorDirNotFound` when the joined path is not indexed; a
wrapped "bad state" error when the file table cannot be loaded;
`ErrorDirectoryNotEmpty` when any file or child exists; otherwise remove the
entry (which panics on the root), persist the root index, and purge the
backing container, treating `ErrorDirNotFound` from that purge as success. -/
def Rmdir (b : Base) (f : FsSt) (dir : String) :
    Outcome (Except Err Unit × FsSt × List Act) :=
  let dir := goJoin f.root dir
  match alookup dir f.dirMap.pathIdx with
  | none => .ran (.error .dirNotFound, f, [])
  | some eid =>
    match loadFilesAt b f.dirMap eid with
    | (.error err, dm1, tr) =>
      .ran (.error (.wrap "directory in a bad state, refusing to modify" err),
        { f with dirMap := dm1 }, tr)
    | (.ok files, dm1, tr) =>
      if files.length > 0 ∨ (childIds dm1 eid).length > 0 then
        .ran (.error .dirNotEmpty, { f with dirMap := dm1 }, tr)
      else
        match removeEntry dm1 dir with
        | .crashed msg => .crashed msg
        | .ran dm2 =>
          let f2 := { f with dirMap := dm2 }
          let ehash := ((aget eid dm1).map (·.hash)).getD ""
          let (w, wtr) := dirMapWrite b dm2
          match w with
          | some err => .ran (.error err, f2, tr ++ wtr)
          | none =>
            match b.purgeRes ehash with
            | some .dirNotFound => .ran (.ok (), f2, tr ++ wtr ++ [.purge ehash])
            | some err => .ran (.error err, f2, tr ++ wtr ++ [.purge ehash])
            | none => .ran (.ok (), f2, tr ++ wtr ++ [.purge ehash])

/-- `Fs.prepareDest`: create the containers for the directory and the file,
then put the name-reconstruction record `"<overlay>\n"` at
`<dirHash>/<fileHash>/name`. -/
def prepareDest (b : Base) (overlay dirHash fileHash : String) :
    Option Err × List Act :=
  match b.mkdirRes dirHash with
  | some err => (some err, [.mkdir dirHash])
  | none =>
    let sub := goJoinList [dirHash, fileHash]
    match b.mkdirRes sub with
    | some err => (some (.wrap "error creating directory for file" err), [.mkdir dirHash, .mkdir sub])
    | none =>
      let nameKey := goJoinList [dirHash, fileHash, "name"]
      match b.putRes nameKey with
      | some err =>
        (some (.wrap "error creating name file" err),
         [.mkdir dirHash, .mkdir sub, .put nameKey (overlay ++ "\n")])
      | none => (none, [.mkdir dirHash, .mkdir sub, .put nameKey (overlay ++ "\n")])

/-- `Fs.put` (backing `Put`, `PutStream`, `PutUnchecked`): reject a remote
containing a newline; resolve the parent directory; prepare the destination
(containers and name record); write the data object (content opaque, shown
as `"<data>"`); record the file in the parent's table and persist that
table. -/
def put (b : Base) (f : FsSt) (remote : String) : Except Err Unit × FsSt × List Act :=
  if hasNL remote then (.error (.invalidName remote), f, [])
  else
    let base := baseOf remote
    match toHash f remote with
    | (none, _) => (.error .dirNotFound, f, [])
    | (some (eid, fileHash), _) =>
      let dirHash := ((aget eid f.dirMap).map (·.hash)).getD ""
      match prepareDest b remote dirHash fileHash with
      | (some err, tr) => (.error err, f, tr)
      | (none, tr) =>
        let dataKey := goJoinList [dirHash, fileHash, "data"]
        match b.putRes dataKey with
        | some err =>
          (.error (.wrap "error creating data file" err), f, tr ++ [.put dataKey "<data>"])
        | none =>
          let tr := tr ++ [.put dataKey "<data>"]
          match loadFilesAt b f.dirMap eid with
          | (.error err, dm1, tr2) => (.error err, { f with dirMap := dm1 }, tr ++ tr2)
          | (.ok files, dm1, tr2) =>
            let files' := ainsert base fileHash files
            let dm2 :=
              match aget eid dm1 with
              | none => dm1
              | some e => aset eid { e with files := some files' } dm1
            let f2 := { f with dirMap := dm2 }
            match aget eid dm2 with
            | none => (.error .nilEntry, f2, tr ++ tr2)
            | some e2 =>
              match dirEntryWrite b e2 with
              | (.error err, tr3) => (.error err, f2, tr ++ tr2 ++ tr3)
              | (.ok _, tr3) => (.ok (), f2, tr ++ tr2 ++ tr3)

/-- `Fs.Copy`: `ErrorCantCopy` when the base lacks the feature; reject a
destination containing a newline (the error message quotes the SOURCE
remote, as the code does); resolve the destination's parent; prepare the
destination — `prepareDest` is passed `src.Remote()` as the overlay, so the
name record holds the SOURCE object's logical path; write the parent's
table (the file is never added to it); copy the unwrapped base object to
the destination `data` key.  `srcRemote` is `src.Remote()` and `srcKey` the
unwrapped base object's key. -/
def Copy (b : Base) (f : FsSt) (srcRemote srcKey remote : String) :
    Except Err Unit × FsSt × List Act :=
  if b.canCopy = false then (.error .cantCopy, f, [])
  else if hasNL remote then (.error (.invalidName srcRemote), f, [])
  else
    match toHash f remote with
    | (none, _) => (.error .dirNotFound, f, [])
    | (some (eid, fileHash), _) =>
      let dirHash := ((aget eid f.dirMap).map (·.hash)).getD ""
      match prepareDest b srcRemote dirHash fileHash with
      | (some err, tr) => (.error err, f, tr)
      | (none, tr) =>
        match aget eid f.dirMap with
        | none => (.error .nilEntry, f, tr)
        | some e =>
          match dirEntryWrite b e with
          | (.error err, tr3) => (.error err, f, tr ++ tr3)
          | (.ok _, tr3) =>
            let dataKey := goJoinList [dirHash, fileHash, "data"]
            match b.copyRes srcKey dataKey with
            | some err => (.error err, f, tr ++ tr3 ++ [.copyObj srcKey dataKey])
            | none => (.ok (), f, tr ++ tr3 ++ [.copyObj srcKey dataKey])

/-- `Fs.NewObject`: `ErrorIsDir` when the remote itself is an indexed
directory; `ErrorObjectNotFound` when the parent is not indexed or the leaf
is absent from the parent's loaded table; a load error is propagated; else
fetch the base `data` object. -/
def NewObject (b : Base) (f : FsSt) (remote : String) :
    Except Err Unit × FsSt × List Act :=
  if (alookup remote f.dirMap.pathIdx).isSome then (.error .isDir, f, [])
  else
    let base := baseOf remote
    match toHash f remote with
    | (none, _) => (.error .objNotFound, f, [])
    | (some (eid, fileHash), _) =>
      match loadFilesAt b f.dirMap eid with
      | (.error err, dm1, tr) => (.error err, { f with dirMap := dm1 }, tr)
      | (.ok files, dm1, tr) =>
        let f1 := { f with dirMap := dm1 }
        if (alookup base files).isSome then
          let dirHash := ((aget eid dm1).map (·.hash)).getD ""
          let dataKey := goJoin (goJoinList [dirHash, fileHash]) "data"
          match b.newObjRes dataKey with
          | some err =>
            (.error (.wrap "error fetching base object" err), f1, tr ++ [.newObj dataKey])
          | none => (.ok (), f1, tr ++ [.newObj dataKey])
        else (.error .objNotFound, f1, tr)

/-- The `wrappedNotify` translator installed by `Fs.ChangeNotify`: fire only
on a `"data"` leaf with at least three key segments; resolve the
directory-key prefix through the storage-key index; load that entry's file
table and scan it for a filename mapped to the file-key segment; emit the
matched name, otherwise ignore the event.  The event kind `typ` is passed
through unchanged. -/
def wrappedNotify (b : Base) (f : FsSt) (key : String) (typ : Nat) :
    Option (String × Nat) × FsSt × List Act :=
  let split := splitSlash key
  if split.getLastD "" ≠ "data" then (none, f, [])
  else if split.length < 3 then (none, f, [])
  else
    let dirHash := String.intercalate "/" (split.take (split.length - 2))
    let fileHash := (split.drop (split.length - 2)).headD ""
    match alookup dirHash f.dirMap.hashIdx with
    | none => (none, f, [])
    | some eid =>
      match loadFilesAt b f.dirMap eid with
      | (.error _, dm1, tr) => (none, { f with dirMap := dm1 }, tr)
      | (.ok files, dm1, tr) =>
        match files.find? (fun pr => pr.2 == fileHash) with
        | some pr => (some (pr.1, typ), { f with dirMap := dm1 }, tr)
        | none => (none, { f with dirMap := dm1 }, tr)

/-! ### `Fs.Purge` -/

/-- The `for _, v := range entry.Children` loop of the purge closure:
fail-fast left-to-right over the captured children, running `step` (the
recursive purge at the remaining fuel) on each. -/
def purgeKids (step : DirMapSt → Nat → Except Err Unit × DirMapSt × List Act) :
    DirMapSt → List Nat → Except Err Unit × DirMapSt × List Act
  | dm, [] => (.ok (), dm, [])
  | dm, k :: ks =>
    match step dm k with
    | (.error err, dm1, tr) => (.error err, dm1, tr)
    | (.ok _, dm1, tr) =>
      match purgeKids step dm1 ks with
      | (r, dm2, tr2) => (r, dm2, tr ++ tr2)

/-- The recursive closure inside `Fs.Purge`: purge every child, then delete
this node's own container and delete the node from both indices.  An error
from a child or from the container delete returns immediately.  `fuel`
bounds the recursion depth. -/
def purgeRec (b : Base) : Nat → DirMapSt → Nat → Except Err Unit × DirMapSt × List Act
  | 0, dm, _ => (.error .outOfFuel, dm, [])
  | fuel + 1, dm, eid =>
    match purgeKids (fun dm1 k => purgeRec b fuel dm1 k) dm (childIds dm eid) with
    | (.error err, dm1, tr) => (.error err, dm1, tr)
    | (.ok _, dm1, tr) =>
      let h := hashAt dm1 eid
      match b.purgeRes h with
      | some err => (.error err, dm1, tr ++ [.purge h])
      | none =>
        let p := pathAt dm1 eid
        (.ok (), { dm1 with pathIdx := aerase p dm1.pathIdx
                            hashIdx := aerase h dm1.hashIdx }, tr ++ [.purge h])

/-- `Fs.Purge`: `ErrorCantPurge` when the base lacks bulk delete;
`ErrorDirNotFound` when the joined path is not indexed; otherwise run the
depth-first recursion, then persist the root index whatever the recursion
returned, reporting a write failure in preference to the recursion's
error. -/
def Purge (b : Base) (f : FsSt) (dir : String) (fuel : Nat) :
    Except Err Unit × FsSt × List Act :=
  if ¬ b.canPurge then (.error .cantPurge, f, [])
  else
    let dir := goJoin f.root dir
    match alookup dir f.dirMap.pathIdx with
    | none => (.error .dirNotFound, f, [])
    | some eid =>
      match purgeRec b fuel f.dirMap eid with
      | (r, dm1, tr) =>
        let f1 := { f with dirMap := dm1 }
        let (w, wtr) := dirMapWrite b dm1
        match w with
        | some err => (.error err, f1, tr ++ wtr)
        | none => (r, f1, tr ++ wtr)

/-! ### `Fs.DirMove` and `Fs.rewriteNameFiles` -/

/-- The per-file loop of `Fs.rewriteNameFiles`: look up the old name record
`<dirHash>/<fileHash>/name`, delete it and put the record for the new
logical location `"<dstLocation>/<fileName>\n"`. -/
def rewriteLoop (b : Base) (entryHash dstLocation : String) :
    List (String × String) → Except Err Unit × List Act
  | [] => (.ok (), [])
  | (fileName, h) :: rest =>
    let nameKey := goJoinList [entryHash, h, "name"]
    match b.newObjRes nameKey with
    | some err => (.error (.wrap "cannot find name file to delete" err), [.newObj nameKey])
    | none =>
      match b.removeRes nameKey with
      | some err =>
        (.error (.wrap "cannot delete name file" err), [.newObj nameKey, .removeObj nameKey])
      | none =>
        let fileDst := goJoinList [dstLocation, fileName]
        match b.putRes nameKey with
        | some err =>
          (.error err, [.newObj nameKey, .removeObj nameKey, .put nameKey (fileDst ++ "\n")])
        | none =>
          match rewriteLoop b entryHash dstLocation rest with
          | (r, tr) =>
            (r, [.newObj nameKey, .removeObj nameKey, .put nameKey (fileDst ++ "\n")] ++ tr)

/-- `Fs.rewriteNameFiles`: load the (already physically moved) directory's
file table through the destination entry and rewrite each of its own files'
name records to the new logical location; not recursive.  Crashes if the
destination entry is absent (nil dereference in Go). -/
def rewriteNameFiles (b : Base) (dm : DirMapSt) (dstLocation : String) :
    Outcome (Except Err Unit × DirMapSt × List Act) :=
  match alookup dstLocation dm.pathIdx with
  | none => .crashed "nil dirEntry"
  | some eid =>
    match loadFilesAt b dm eid with
    | (.error err, dm1, tr) =>
      .ran (.error (.wrap "cannot rewrite name files with invalid map file" err), dm1, tr)
    | (.ok files, dm1, tr) =>
      match rewriteLoop b (hashAt dm1 eid) dstLocation files with
      | (r, tr2) => .ran (r, dm1, tr ++ tr2)

/-- The `for _, child := range entry.Children` loop of the `DirMove`
recursion.  The range clause captured the slice header — the parent id `eid`
and the slice length at loop entry (the caller passes the index list
`List.range capLen`) — but each iteration reads index `i` from the CURRENT
backing buffer, which `removeEntry` shifts in place while the loop runs (the
aliasing this models is exactly Go's). -/
def dmKids (step : DirMapSt → DirMapSt → Nat → Outcome (Except Err Unit × DirMapSt × DirMapSt × List Act))
    (eid : Nat) :
    DirMapSt → DirMapSt → List Nat → Outcome (Except Err Unit × DirMapSt × DirMapSt × List Act)
  | sDm, dDm, [] => .ran (.ok (), sDm, dDm, [])
  | sDm, dDm, i :: is =>
    match (aget eid sDm).bind (fun e => e.childBuf.get? i) with
    | none => dmKids step eid sDm dDm is
    | some cid =>
      match step sDm dDm cid with
      | .crashed msg => .crashed msg
      | .ran (.error err, s1, d1, tr) => .ran (.error err, s1, d1, tr)
      | .ran (.ok _, s1, d1, tr) =>
        match dmKids step eid s1 d1 is with
        | .crashed msg => .crashed msg
        | .ran (r, s2, d2, tr2) => .ran (r, s2, d2, tr ++ tr2)

/-- The recursive closure inside `Fs.DirMove`: process the children first,
then move this node's container from the source key to the destination key,
register the destination entry, remove the source entry and rewrite this
directory's own name records. -/
def dmRec (b : Base) (src dst : FsSt) (srcR dstR : String) :
    Nat → DirMapSt → DirMapSt → Nat → Outcome (Except Err Unit × DirMapSt × DirMapSt × List Act)
  | 0, sDm, dDm, _ => .ran (.error .outOfFuel, sDm, dDm, [])
  | fuel + 1, sDm, dDm, eid =>
    let capLen := ((aget eid sDm).map (·.childLen)).getD 0
    match dmKids (fun s d c => dmRec b src dst srcR dstR fuel s d c) eid sDm dDm
        (List.range capLen) with
    | .crashed msg => .crashed msg
    | .ran (.error err, s1, d1, tr) => .ran (.error err, s1, d1, tr)
    | .ran (.ok _, s1, d1, tr) =>
      match aget eid s1 with
      | none => .crashed "nil dirEntry"
      | some e =>
        let srcRel := goTrimPref (goTrimPref e.path srcR) "/"
        let dstLocation := goJoin dstR srcRel
        let sH := src.hasher e.path
        let dH := dst.hasher dstLocation
        match b.moveRes sH dH with
        | some err => .ran (.error err, s1, d1, tr ++ [.move sH dH])
        | none =>
          let d2 := newDirEntry dst.hasher d1 dstLocation
          match removeEntry s1 e.path with
          | .crashed msg => .crashed msg
          | .ran s2 =>
            match rewriteNameFiles b d2 dstLocation with
            | .crashed msg => .crashed msg
            | .ran (r, d3, tr2) => .ran (r, s2, d3, tr ++ [.move sH dH] ++ tr2)

/-- `Fs.DirMove`: `ErrorCantDirMove` without the base capability;
`ErrorDirNotFound` when the source is not indexed, `ErrorDirExists` when the
destination already is; otherwise run the children-first recursion and then
persist the destination and source root indices in that order, returning the
recursion's error when both writes succeed. -/
def DirMove (b : Base) (src dst : FsSt) (srcRemote dstRemote : String) (fuel : Nat) :
    Outcome (Except Err Unit × FsSt × FsSt × List Act) :=
  if ¬ b.canDirMove then .ran (.error .cantDirMove, src, dst, [])
  else
    let srcR := goJoin src.root srcRemote
    let dstR := goJoin dst.root dstRemote
    match alookup srcR src.dirMap.pathIdx with
    | none => .ran (.error .dirNotFound, src, dst, [])
    | some srcEid =>
      if (alookup dstR dst.dirMap.pathIdx).isSome then .ran (.error .dirExists, src, dst, [])
      else
        match dmRec b src dst srcR dstR fuel src.dirMap dst.dirMap srcEid with
        | .crashed msg => .crashed msg
        | .ran (recRes, sDm, dDm, tr) =>
          let src1 := { src with dirMap := sDm }
          let dst1 := { dst with dirMap := dDm }
          let (w1, a1) := dirMapWrite b dDm
          match w1 with
          | some err => .ran (.error err, src1, dst1, tr ++ a1)
          | none =>
            let (w2, a2) := dirMapWrite b sDm
            match w2 with
            | some err => .ran (.error err, src1, dst1, tr ++ a1 ++ a2)
            | none => .ran (recRes, src1, dst1, tr ++ a1 ++ a2)

/-! ### Derived notions used by the theorems -/

/-- The crash message of an outcome, if it crashed. -/
def outMsg {α : Type} : Outcome α → Option String
  | .crashed m => some m
  | .ran _ => none

/-- Whether a recorded backing-store call succeeded under the oracle (only
container purges can fail among the calls `Purge` makes). -/
def actPurgeOk (b : Base) : Act → Bool
  | .purge k => (b.purgeRes k).isNone
  | _ => true

/-- The children-before-self container-delete trace that §4.5's description
of Purge predicts for a fully successful purge: every child's subtree first,
then the node's own container.  Reads only the arena, which `purgeRec` never
modifies. -/
def purgeSpecTrace (dm : DirMapSt) : Nat → Nat → List Act
  | 0, _ => []
  | fuel + 1, eid =>
    ((childIds dm eid).map (fun k => purgeSpecTrace dm fuel k)).flatten ++ [.purge (hashAt dm eid)]

/-- Well-formedness of a directory map, as maintained by `newDirEntry` from
the fresh map: index ids stay below `nextId`, path-index keys are unique,
and every indexed path resolves to an arena entry whose stored hash and path
are `hasher p` and `p`. -/
structure DmWF (hasher : String → String) (dm : DirMapSt) : Prop where
  pathLt : ∀ pr ∈ dm.pathIdx, pr.2 < dm.nextId
  arenaLt : ∀ pr ∈ dm.arena, pr.1 < dm.nextId
  nodup : (akeys dm.pathIdx).Nodup
  consistent : ∀ p eid, alookup p dm.pathIdx = some eid →
    ∃ e, aget eid dm = some e ∧ e.hash = hasher p ∧ e.path = p

/-- Fail-fast shape of a `purgeRec` outcome: on success every recorded
container delete succeeded; on an error, either no recorded call failed (the
error is fuel exhaustion bubbling up) or the trace ends at the first failing
container delete, everything before it having succeeded, and the error is
that failure. -/
def failFast (b : Base) (r : Except Err Unit) (tr : List Act) : Prop :=
  (r = .ok () → ∀ a ∈ tr, actPurgeOk b a = true)
  ∧ ∀ e, r = .error e →
      (∀ a ∈ tr, actPurgeOk b a = true)
      ∨ ∃ pre k, tr = pre ++ [.purge k] ∧ (∀ a ∈ pre, actPurgeOk b a = true)
          ∧ b.purgeRes k = some e

/-! ### Concrete instances used by counterexamples and witnesses -/

/-- The identity hash function (`hash_type = "none"`). -/
def idHasher : String → String := id

/-- A backing store with every capability, every call succeeding, and no
stored `map` objects. -/
def okBase : Base :=
  { canEmptyDirs := true, canPurge := true, canDirMove := true
    readMap := fun _ => .notFound
    mkdirRes := fun _ => none, putRes := fun _ => none, purgeRes := fun _ => none
    removeRes := fun _ => none, newObjRes := fun _ => none, moveRes := fun _ _ => none }

/-- A freshly constructed `Fs` over the identity hash with an empty tree. -/
def fs0 : FsSt := ⟨idHasher, "", newDirMap idHasher⟩

/-- The state after `Mkdir "a"; Purge "a"; Mkdir "a"` on a fresh tree. -/
def stalePurgeSt : FsSt :=
  (Mkdir okBase ((Purge okBase ((Mkdir okBase fs0 "a").2.1) "a" 10).2.1) "a").2.1

/-- A source tree holding `a` with the three children `a/x`, `a/y`, `a/z`. -/
def threeKidsDm : DirMapSt :=
  newDirEntry idHasher
    (newDirEntry idHasher (newDirEntry idHasher (newDirMap idHasher) "a/x") "a/y") "a/z"

/-- `DirMove` of `a` (three children) to `c` between two identity-hash
instances, everything succeeding in the backing store. -/
def dmv : Outcome (Except Err Unit × FsSt × FsSt × List Act) :=
  DirMove okBase ⟨idHasher, "", threeKidsDm⟩ ⟨idHasher, "", newDirMap idHasher⟩ "a" "c" 20

/-- The result and the two directory maps of `dmv`, when it did not crash. -/
def dmvParts : Option (Except Err Unit × DirMapSt × DirMapSt × List Act) :=
  match dmv with
  | .crashed _ => none
  | .ran (r, s, d, tr) => some (r, s.dirMap, d.dirMap, tr)

/-- A tree holding the directory `"a b"` (a name with a space), identity
hash. -/
def spaceDm : DirMapSt := newDirEntry idHasher (newDirMap idHasher) "a b"

/-- Reloading the persisted root index of `spaceDm`. -/
def spaceReload : Option DirMapSt :=
  match loadDirectoryMap idHasher (dirMapWriteContent spaceDm) with
  | .ok dm' => some dm'
  | .error _ => none

/-- A small identity-hash tree (root and `a`) whose round trip succeeds,
used to witness the amended round-trip theorem. -/
def rtWitnessDm : DirMapSt := newDirEntry idHasher (newDirMap idHasher) "a"

/-- A backing store failing the container delete of `a/x` only. -/
def purgeFailBase : Base :=
  { okBase with purgeRes := fun k => if k = "a/x" then some (.base 7) else none }

/-- A tree holding `a` with the two children `a/x` and `a/y`. -/
def twoKidsDm : DirMapSt :=
  newDirEntry idHasher (newDirEntry idHasher (newDirMap idHasher) "a/x") "a/y"

/-- `Purge "a"` over `twoKidsDm` with the `a/x` container delete failing. -/
def purgeFailRun : Except Err Unit × FsSt × List Act :=
  Purge purgeFailBase ⟨idHasher, "", twoKidsDm⟩ "a" 10

/-- A backing store holding a file table `x -> x` for directory key `a`. -/
def notifyBase : Base :=
  { okBase with readMap := fun k => if k = "a/map" then .content "x x\n" else .notFound }

/-- An `Fs` over the identity hash indexing the directory `a`. -/
def notifyFs : FsSt := ⟨idHasher, "", newDirEntry idHasher (newDirMap idHasher) "a"⟩

/-- A backing store whose every `map` read fails with an opaque error. -/
def readFailBase : Base := { okBase with readMap := fun _ => .errNew (.base 3) }

/-- A directory entry with an unloaded file table. -/
def unloadedEntry : EntryData := ⟨"a", "a", some 0, [], 0, none⟩

/-- The state after `Mkdir "a"` on a fresh identity-hash tree. -/
def fsA : FsSt := (Mkdir okBase fs0 "a").2.1

/-- The state after `Mkdir "b"; put "b/q"` on a fresh identity-hash tree:
the directory `b` is indexed with a loaded file table. -/
def copyFs : FsSt := (put okBase (Mkdir okBase fs0 "b").2.1 "b/q").2.1

/-- The map of `fsA` after loading the (empty) file table of entry 1. -/
def dmA : DirMapSt := (loadFilesAt okBase fsA.dirMap 1).2.1

end Hashmap

deriving instance DecidableEq for Except

namespace Hashmap

/-! ## Lemmas on association lists -/

theorem akeys_nil {κ α : Type} : akeys ([] : List (κ × α)) = [] := rfl

theorem akeys_cons {κ α : Type} (hd : κ × α) (t : List (κ × α)) :
    akeys (hd :: t) = hd.1 :: akeys t := rfl

theorem alookup_ainsert {κ α : Type} [DecidableEq κ] (k j : κ) (v : α) (l : List (κ × α)) :
    alookup j (ainsert k v l) = if k = j then some v else alookup j l := by
  induction l with
  | nil => by_cases h : k = j <;> simp [ainsert, alookup, h]
  | cons hd t ih =>
    obtain ⟨k', v'⟩ := hd
    by_cases hk : k' = k
    · subst hk
      by_cases hj : k' = j <;> simp [ainsert, alookup, hj]
    · by_cases hj : k' = j
      · subst hj
        have : ¬ k = k' := fun h => hk h.symm
        simp [ainsert, hk, alookup, this]
      · simp [ainsert, hk, alookup, hj, ih]

theorem alookup_none_iff {κ α : Type} [DecidableEq κ] (k : κ) (l : List (κ × α)) :
    alookup k l = none ↔ k ∉ akeys l := by
  induction l with
  | nil => simp [alookup, akeys]
  | cons hd t ih =>
    obtain ⟨k', v'⟩ := hd
    by_cases h : k' = k
    · subst h
      simp [alookup, akeys_cons]
    · have h' : ¬ k = k' := fun hh => h hh.symm
      simp [alookup, akeys_cons, h, h', ih]

theorem alookup_isSome_iff {κ α : Type} [DecidableEq κ] (k : κ) (l : List (κ × α)) :
    (alookup k l).isSome = true ↔ k ∈ akeys l := by
  rcases hl : alookup k l with _ | v
  · simpa [hl] using (alookup_none_iff k l).mp hl
  · have hk : ¬ (alookup k l = none) := by simp [hl]
    rw [alookup_none_iff] at hk
    simpa [hl] using hk

theorem alookup_mem {κ α : Type} [DecidableEq κ] {k : κ} {v : α} {l : List (κ × α)}
    (h : alookup k l = some v) : (k, v) ∈ l := by
  induction l with
  | nil => simp [alookup] at h
  | cons hd t ih =>
    obtain ⟨k', v'⟩ := hd
    by_cases hk : k' = k
    · subst hk
      simp [alookup] at h
      simp [h]
    · simp [alookup, hk] at h
      simp [ih h]

theorem mem_alookup_nodup {κ α : Type} [DecidableEq κ] {k : κ} {v : α} {l : List (κ × α)}
    (hnd : (akeys l).Nodup) (h : (k, v) ∈ l) : alookup k l = some v := by
  induction l with
  | nil => simp at h
  | cons hd t ih =>
    obtain ⟨k', v'⟩ := hd
    rw [akeys_cons, List.nodup_cons] at hnd
    rcases List.mem_cons.mp h with heq | hmem
    · rw [Prod.mk.injEq] at heq
      obtain ⟨rfl, rfl⟩ := heq
      simp [alookup]
    · have hk : ¬ k' = k := by
        intro he
        subst he
        have hmm := List.mem_map_of_mem Prod.fst hmem
        exact hnd.1 hmm
      simp only [alookup, hk, if_false]
      exact ih hnd.2 hmem

theorem mem_akeys_ainsert {κ α : Type} [DecidableEq κ] (k j : κ) (v : α) (l : List (κ × α)) :
    j ∈ akeys (ainsert k v l) ↔ j = k ∨ j ∈ akeys l := by
  induction l with
  | nil => simp [ainsert, akeys]
  | cons hd t ih =>
    obtain ⟨k', v'⟩ := hd
    by_cases hk : k' = k
    · subst hk
      simp [ainsert, akeys_cons]
    · simp [ainsert, hk, akeys_cons, ih]
      tauto

theorem nodup_akeys_ainsert {κ α : Type} [DecidableEq κ] (k : κ) (v : α) (l : List (κ × α))
    (hnd : (akeys l).Nodup) : (akeys (ainsert k v l)).Nodup := by
  induction l with
  | nil => simp [ainsert, akeys]
  | cons hd t ih =>
    obtain ⟨k', v'⟩ := hd
    rw [akeys_cons, List.nodup_cons] at hnd
    by_cases hk : k' = k
    · subst hk
      rw [show ainsert k' v ((k', v') :: t) = (k', v) :: t by simp [ainsert]]
      rw [akeys_cons, List.nodup_cons]
      exact hnd
    · rw [show ainsert k v ((k', v') :: t) = (k', v') :: ainsert k v t by simp [ainsert, hk]]
      rw [akeys_cons, List.nodup_cons]
      refine ⟨?_, ih hnd.2⟩
      intro hmem
      rcases (mem_akeys_ainsert k k' v t).mp hmem with rfl | hm
      · exact hk rfl
      · exact hnd.1 hm

theorem alookup_aerase_self {κ α : Type} [DecidableEq κ] (k : κ) (l : List (κ × α)) :
    alookup k (aerase k l) = none := by
  induction l with
  | nil => simp [aerase, alookup]
  | cons hd t ih =>
    obtain ⟨k', v'⟩ := hd
    by_cases h : k' = k
    · subst h
      simpa [aerase, alookup] using ih
    · simpa [aerase, alookup, h] using ih

/-! ## Lemmas on sorting -/

theorem strLtB_asymm (a b : List Char) (h : strLtB a b = true) : strLtB b a = false := by
  induction a generalizing b with
  | nil =>
    cases b with
    | nil => simp [strLtB] at h
    | cons d ds => simp [strLtB]
  | cons c cs ih =>
    cases b with
    | nil => simp [strLtB] at h
    | cons d ds =>
      by_cases h1 : c.toNat < d.toNat
      · have h2 : ¬ d.toNat < c.toNat := by omega
        simp [strLtB, h1, h2]
      · by_cases h2 : d.toNat < c.toNat
        · simp [strLtB, h1, h2] at h
        · simp [strLtB, h1, h2] at h ⊢
          exact ih ds h

theorem strLeB_total (a b : String) (h : strLeB a b = false) : strLeB b a = true := by
  simp [strLeB] at h ⊢
  rw [strLtB_asymm _ _ h]

theorem mem_insertSorted (x y : String) (l : List String) :
    y ∈ insertSorted x l ↔ y = x ∨ y ∈ l := by
  induction l with
  | nil => simp [insertSorted]
  | cons a t ih =>
    by_cases h : strLeB x a = true
    · simp [insertSorted, h]
      try tauto
    · simp only [Bool.not_eq_true] at h
      simp [insertSorted, h, ih]
      try tauto

theorem mem_sortStr (y : String) (l : List String) : y ∈ sortStr l ↔ y ∈ l := by
  induction l with
  | nil => simp [sortStr]
  | cons a t ih => simp [sortStr, mem_insertSorted, ih]

theorem strLtB_false_trans (a b c : List Char) (h1 : strLtB a b = false)
    (h2 : strLtB b c = false) : strLtB a c = false := by
  induction a generalizing b c with
  | nil =>
    cases b with
    | nil => exact h2
    | cons d ds => simp [strLtB] at h1
  | cons c1 cs ih =>
    cases c with
    | nil => cases b <;> simp [strLtB]
    | cons e es =>
      cases b with
      | nil => simp [strLtB] at h2
      | cons d ds =>
        by_cases hcd : c1.toNat < d.toNat
        · simp [strLtB, hcd] at h1
        · by_cases hde : d.toNat < e.toNat
          · simp [strLtB, hde] at h2
          · have hce : ¬ c1.toNat < e.toNat := by omega
            by_cases hec : e.toNat < c1.toNat
            · simp [strLtB, hce, hec]
            · have hdc : ¬ d.toNat < c1.toNat := by omega
              have hed : ¬ e.toNat < d.toNat := by omega
              simp [strLtB, hcd, hdc] at h1
              simp [strLtB, hde, hed] at h2
              simp [strLtB, hce, hec]
              exact ih ds es h1 h2

theorem strLeB_trans (a b c : String) (h1 : strLeB a b = true) (h2 : strLeB b c = true) :
    strLeB a c = true := by
  simp [strLeB] at h1 h2 ⊢
  exact strLtB_false_trans c.data b.data a.data h2 h1

theorem pairwise_insertSorted (x : String) (l : List String)
    (hs : l.Pairwise (fun a b => strLeB a b = true)) :
    (insertSorted x l).Pairwise (fun a b => strLeB a b = true) := by
  induction l with
  | nil => simp [insertSorted]
  | cons a t ih =>
    rw [List.pairwise_cons] at hs
    obtain ⟨hhead, htail⟩ := hs
    by_cases h : strLeB x a = true
    · rw [show insertSorted x (a :: t) = x :: a :: t by simp [insertSorted, h]]
      rw [List.pairwise_cons]
      constructor
      · intro b hb
        rcases List.mem_cons.mp hb with rfl | hbt
        · exact h
        · exact strLeB_trans x a b h (hhead b hbt)
      · rw [List.pairwise_cons]
        exact ⟨hhead, htail⟩
    · have hxa : strLeB x a = false := by simpa using h
      rw [show insertSorted x (a :: t) = a :: insertSorted x t by simp [insertSorted, hxa]]
      rw [List.pairwise_cons]
      constructor
      · intro b hb
        rcases (mem_insertSorted x b t).mp hb with rfl | hbt
        · exact strLeB_total _ a hxa
        · exact hhead b hbt
      · exact ih htail

theorem sortStr_sorted (l : List String) :
    (sortStr l).Pairwise (fun a b => strLeB a b = true) := by
  induction l with
  | nil => simp [sortStr]
  | cons a t ih => exact pairwise_insertSorted a (sortStr t) ih

/-! ## Lemmas on the persisted line format -/

theorem mk_data (s : String) : String.mk s.data = s := by
  cases s
  rfl

theorem foldl_append_data (t : List String) : ∀ (a : String),
    (t.foldl (· ++ ·) a).data = a.data ++ (t.foldl (· ++ ·) "").data := by
  induction t with
  | nil => intro a; simp [List.foldl]
  | cons y ys ih =>
    intro a
    show (ys.foldl (· ++ ·) (a ++ y)).data = _
    rw [ih (a ++ y)]
    conv_rhs => rw [show (y :: ys).foldl (· ++ ·) "" = ys.foldl (· ++ ·) ("" ++ y) from rfl,
      ih ("" ++ y)]
    rw [String.data_append, String.data_append]
    simp

theorem join_cons (x : String) (xs : List String) :
    (String.join (x :: xs)).data = x.data ++ (String.join xs).data := by
  show ((x :: xs).foldl (· ++ ·) "").data = _
  rw [show ((x :: xs).foldl (· ++ ·) "") = xs.foldl (· ++ ·) ("" ++ x) from rfl,
    foldl_append_data, String.data_append]
  show ([] ++ x.data) ++ _ = _
  simp [String.join]

theorem splitNLAux_append (l rest acc : List Char) (hl : l.all notNL = true) :
    splitNLAux (l ++ '\n' :: rest) acc = (acc.reverse ++ l) :: splitNLAux rest [] := by
  induction l generalizing acc with
  | nil => simp [splitNLAux]
  | cons c cs ih =>
    rw [List.all_cons, Bool.and_eq_true] at hl
    have hc : ¬ c = '\n' := by
      intro he
      rw [he] at hl
      simp [notNL] at hl
    rw [List.cons_append]
    rw [show splitNLAux (c :: (cs ++ '\n' :: rest)) acc
        = splitNLAux (cs ++ '\n' :: rest) (c :: acc) by simp [splitNLAux, hc]]
    rw [ih (c :: acc) hl.2]
    simp

theorem splitNL_cons_line (l rest : List Char) (hl : l.all notNL = true) :
    splitNL (l ++ '\n' :: rest) = l :: splitNL rest := by
  unfold splitNL
  rw [splitNLAux_append l rest [] hl]
  simp

theorem takeWhile_append_mid {α : Type} (q : α → Bool) (l r : List α) (c : α)
    (hl : l.all q = true) (hc : q c = false) :
    (l ++ c :: r).takeWhile q = l := by
  induction l with
  | nil => simp [List.takeWhile, hc]
  | cons a t ih =>
    simp only [List.all_cons, Bool.and_eq_true] at hl
    simp [List.takeWhile, hl.1, ih hl.2]

theorem dropWhile_append_mid {α : Type} (q : α → Bool) (l r : List α) (c : α)
    (hl : l.all q = true) (hc : q c = false) :
    (l ++ c :: r).dropWhile q = c :: r := by
  induction l with
  | nil => simp [List.dropWhile, hc]
  | cons a t ih =>
    simp only [List.all_cons, Bool.and_eq_true] at hl
    simp [List.dropWhile, hl.1, ih hl.2]

theorem parseLine_keyval (h p : String) (hsp : h.data.all notSpace = true) :
    parseLine (h.data ++ ' ' :: p.data) = some (.ok (h, p)) := by
  have hne : h.data ++ ' ' :: p.data ≠ [] := by simp
  have hsc : notSpace ' ' = false := by simp [notSpace]
  rw [parseLine, if_neg hne, dropWhile_append_mid _ _ _ _ hsp hsc,
    takeWhile_append_mid _ _ _ _ hsp hsc, mk_data, mk_data]

theorem parseAcc_keyvals (lines : List (String × String))
    (hsp : ∀ pr ∈ lines, pr.1.data.all notSpace = true) :
    parseAcc (lines.map (fun pr => pr.1.data ++ ' ' :: pr.2.data)) = (lines, none) := by
  induction lines with
  | nil => simp [parseAcc]
  | cons pr t ih =>
    simp only [List.map_cons, parseAcc,
      parseLine_keyval pr.1 pr.2 (hsp pr (List.mem_cons_self pr t))]
    rw [ih (fun q hq => hsp q (List.mem_cons_of_mem pr hq))]

theorem splitNL_join_lines (lines : List (String × String))
    (hnl : ∀ pr ∈ lines, pr.1.data.all notNL = true ∧ pr.2.data.all notNL = true) :
    splitNL (String.join (lines.map (fun pr => pr.1 ++ " " ++ pr.2 ++ "\n"))).data
      = lines.map (fun pr => pr.1.data ++ ' ' :: pr.2.data) := by
  induction lines with
  | nil => simp [String.join, splitNL, splitNLAux]
  | cons pr t ih =>
    obtain ⟨h1, h2⟩ := hnl pr (List.mem_cons_self pr t)
    rw [List.map_cons, join_cons]
    have hshape : (pr.1 ++ " " ++ pr.2 ++ "\n").data
        = (pr.1.data ++ ' ' :: pr.2.data) ++ ['\n'] := by
      rw [String.data_append, String.data_append, String.data_append,
        show (" " : String).data = [' '] from rfl,
        show ("\n" : String).data = ['\n'] from rfl]
      simp
    rw [hshape]
    have hl : (pr.1.data ++ ' ' :: pr.2.data).all notNL = true := by
      rw [List.all_append, List.all_cons]
      rw [h1, h2]
      simp [notNL]
    rw [List.append_assoc, List.singleton_append, splitNL_cons_line _ _ hl,
      ih (fun q hq => hnl q (List.mem_cons_of_mem pr hq))]
    simp


/-! ## Lemmas on `registerEntry` and `newDirEntry` -/

theorem mem_ainsert {κ α : Type} [DecidableEq κ] {pr : κ × α} {k : κ} {v : α}
    {l : List (κ × α)} (h : pr ∈ ainsert k v l) : pr = (k, v) ∨ pr ∈ l := by
  induction l with
  | nil => simpa [ainsert] using h
  | cons hd t ih =>
    obtain ⟨k', v'⟩ := hd
    by_cases hk : k' = k
    · subst hk
      rcases List.mem_cons.mp (by simpa [ainsert] using h) with heq | hmem
      · exact Or.inl heq
      · exact Or.inr (List.mem_cons_of_mem _ hmem)
    · rcases List.mem_cons.mp (by simpa [ainsert, hk] using h) with heq | hmem
      · exact Or.inr (heq ▸ List.mem_cons_self _ _)
      · rcases ih hmem with h1 | h2
        · exact Or.inl h1
        · exact Or.inr (List.mem_cons_of_mem _ h2)

theorem registerEntry_pathIdx (hasher : String → String) (dm : DirMapSt) (p : String)
    (parent? : Option Nat) :
    (registerEntry hasher dm p parent?).pathIdx = ainsert p dm.nextId dm.pathIdx := by
  unfold registerEntry
  cases parent? with
  | none => rfl
  | some pid =>
    simp only []
    split
    · rfl
    · rfl

theorem registerEntry_nextId (hasher : String → String) (dm : DirMapSt) (p : String)
    (parent? : Option Nat) :
    (registerEntry hasher dm p parent?).nextId = dm.nextId + 1 := by
  unfold registerEntry
  cases parent? with
  | none => rfl
  | some pid =>
    simp only []
    split
    · rfl
    · rfl

theorem registerEntry_aget_self (hasher : String → String) (dm : DirMapSt) (p : String)
    (parent? : Option Nat) :
    ∃ e, aget dm.nextId (registerEntry hasher dm p parent?) = some e
      ∧ e.hash = hasher p ∧ e.path = p := by
  unfold registerEntry
  cases parent? with
  | none =>
    refine ⟨⟨p, hasher p, none, [], 0, none⟩, ?_, rfl, rfl⟩
    show alookup dm.nextId (ainsert dm.nextId _ dm.arena) = _
    rw [alookup_ainsert, if_pos rfl]
  | some pid =>
    simp only []
    split
    · refine ⟨⟨p, hasher p, some pid, [], 0, none⟩, ?_, rfl, rfl⟩
      show alookup dm.nextId (ainsert dm.nextId _ dm.arena) = _
      rw [alookup_ainsert, if_pos rfl]
    · rename_i pe hpe
      have hpe2 : alookup pid (ainsert dm.nextId
          (⟨p, hasher p, some pid, [], 0, none⟩ : EntryData) dm.arena) = some pe := hpe
      by_cases hpid : pid = dm.nextId
      · subst hpid
        rw [alookup_ainsert, if_pos rfl] at hpe2
        have hpeq : pe = ⟨p, hasher p, some dm.nextId, [], 0, none⟩ :=
          (Option.some.inj hpe2).symm
        refine ⟨{ pe with childBuf := pe.childBuf.take pe.childLen ++ [dm.nextId],
                          childLen := pe.childLen + 1 }, ?_, ?_, ?_⟩
        · show alookup dm.nextId (ainsert dm.nextId _ _) = _
          rw [alookup_ainsert, if_pos rfl]
        · rw [hpeq]
        · rw [hpeq]
      · refine ⟨⟨p, hasher p, some pid, [], 0, none⟩, ?_, rfl, rfl⟩
        show alookup dm.nextId (ainsert pid _ (ainsert dm.nextId _ dm.arena)) = _
        rw [alookup_ainsert, if_neg hpid, alookup_ainsert, if_pos rfl]

theorem registerEntry_aget_other (hasher : String → String) (dm : DirMapSt) (p : String)
    (parent? : Option Nat) (i : Nat) (hne : i ≠ dm.nextId) :
    ((aget i (registerEntry hasher dm p parent?)).map (fun e => (e.hash, e.path)))
      = ((aget i dm).map (fun e => (e.hash, e.path))) := by
  unfold registerEntry
  have hbase : alookup i (ainsert dm.nextId (⟨p, hasher p, parent?, [], 0, none⟩ : EntryData)
      dm.arena) = alookup i dm.arena := by
    rw [alookup_ainsert, if_neg (fun h => hne h.symm)]
  cases parent? with
  | none => simpa [aget] using congrArg (Option.map (fun e => (e.hash, e.path))) hbase
  | some pid =>
    simp only []
    split
    · simpa [aget] using congrArg (Option.map (fun e => (e.hash, e.path))) hbase
    · rename_i pe hpe
      by_cases hpid : i = pid
      · subst hpid
        show ((alookup i (ainsert i _ _)).map _) = _
        rw [alookup_ainsert, if_pos rfl]
        have hpe' : alookup i dm.arena = some pe := by
          have := hpe
          simp only [aget] at this
          rwa [hbase] at this
        simp [aget, hpe']
      · show ((alookup i (ainsert pid _ _)).map _) = _
        rw [alookup_ainsert, if_neg (fun h => hpid h.symm)]
        simpa [aget] using congrArg (Option.map (fun e => (e.hash, e.path))) hbase

theorem DmWF_registerEntry (hasher : String → String) (dm : DirMapSt) (p : String)
    (parent? : Option Nat) (hwf : DmWF hasher dm)
    (hpid : ∀ pid, parent? = some pid → pid < dm.nextId + 1) :
    DmWF hasher (registerEntry hasher dm p parent?) := by
  have hidx := registerEntry_pathIdx hasher dm p parent?
  have hnid := registerEntry_nextId hasher dm p parent?
  constructor
  · intro pr hpr
    rw [hidx] at hpr
    rw [hnid]
    rcases mem_ainsert hpr with rfl | hold
    · simp
    · exact Nat.lt_succ_of_lt (hwf.pathLt pr hold)
  · intro pr hpr
    rw [hnid]
    unfold registerEntry at hpr
    rcases parent? with _ | pid
    · rcases mem_ainsert hpr with rfl | hold
      · simp
      · exact Nat.lt_succ_of_lt (hwf.arenaLt pr hold)
    · simp only [] at hpr
      revert hpr
      split
      · intro hpr
        rcases mem_ainsert hpr with rfl | hold
        · simp
        · exact Nat.lt_succ_of_lt (hwf.arenaLt pr hold)
      · rename_i pe hpe
        intro hpr
        rcases mem_ainsert hpr with rfl | hpr2
        · have : pid ∈ akeys (ainsert dm.nextId
              (⟨p, hasher p, some pid, [], 0, none⟩ : EntryData) dm.arena) := by
            rw [← alookup_isSome_iff]
            simp only [aget] at hpe
            simp [hpe]
          rcases (mem_akeys_ainsert _ _ _ _).mp this with rfl | hmem
          · simp
          · have : ∃ v, (pid, v) ∈ dm.arena := by
              rcases hv : alookup pid dm.arena with _ | v
              · rw [alookup_none_iff] at hv
                exact absurd hmem hv
              · exact ⟨v, alookup_mem hv⟩
            obtain ⟨v, hv⟩ := this
            exact Nat.lt_succ_of_lt (hwf.arenaLt (pid, v) hv)
        · rcases mem_ainsert hpr2 with rfl | hold
          · simp
          · exact Nat.lt_succ_of_lt (hwf.arenaLt pr hold)
  · rw [hidx]
    exact nodup_akeys_ainsert _ _ _ hwf.nodup
  · intro q eid hq
    rw [hidx, alookup_ainsert] at hq
    by_cases hpq : p = q
    · rw [if_pos hpq] at hq
      have heid : eid = dm.nextId := (Option.some.inj hq).symm
      subst heid
      subst hpq
      exact registerEntry_aget_self hasher dm p parent?
    · rw [if_neg hpq] at hq
      obtain ⟨e, he, hh, hp2⟩ := hwf.consistent q eid hq
      have hne : eid ≠ dm.nextId := by
        have := hwf.pathLt (q, eid) (alookup_mem hq)
        omega
      have hfields := registerEntry_aget_other hasher dm p parent? eid hne
      rw [he] at hfields
      rcases hx : aget eid (registerEntry hasher dm p parent?) with _ | e2
      · rw [hx] at hfields
        simp at hfields
      · rw [hx] at hfields
        simp at hfields
        exact ⟨e2, rfl, hfields.1.symm ▸ hh, hfields.2.symm ▸ hp2⟩


theorem mem_keys_registerEntry (hasher : String → String) (dm : DirMapSt) (p : String)
    (parent? : Option Nat) (q : String) :
    q ∈ akeys (registerEntry hasher dm p parent?).pathIdx ↔ q = p ∨ q ∈ akeys dm.pathIdx := by
  rw [registerEntry_pathIdx]
  exact mem_akeys_ainsert p q dm.nextId dm.pathIdx

theorem newDirEntryAux_succ (hasher : String → String) (fuel : Nat) (dm : DirMapSt)
    (p : String) :
    newDirEntryAux hasher (fuel + 1) dm p =
      if (alookup p dm.pathIdx).isSome then dm
      else if p = "" then registerEntry hasher dm p none
      else
        match alookup (parentOf p) dm.pathIdx with
        | some pid => registerEntry hasher dm p (some pid)
        | none =>
          registerEntry hasher (newDirEntryAux hasher fuel dm (parentOf p)) p
            (alookup (parentOf p) (newDirEntryAux hasher fuel dm (parentOf p)).pathIdx) := rfl

theorem newDirEntryAux_eq_present (hasher : String → String) (fuel : Nat) (dm : DirMapSt)
    (p : String) (h1 : (alookup p dm.pathIdx).isSome) :
    newDirEntryAux hasher (fuel + 1) dm p = dm := by
  rw [newDirEntryAux_succ, if_pos h1]

theorem newDirEntryAux_eq_root (hasher : String → String) (fuel : Nat) (dm : DirMapSt)
    (h1 : ¬ (alookup "" dm.pathIdx).isSome) :
    newDirEntryAux hasher (fuel + 1) dm "" = registerEntry hasher dm "" none := by
  rw [newDirEntryAux_succ, if_neg h1, if_pos rfl]

theorem newDirEntryAux_eq_parent (hasher : String → String) (fuel : Nat) (dm : DirMapSt)
    (p : String) (pid : Nat) (h1 : ¬ (alookup p dm.pathIdx).isSome) (h2 : p ≠ "")
    (h3 : alookup (parentOf p) dm.pathIdx = some pid) :
    newDirEntryAux hasher (fuel + 1) dm p = registerEntry hasher dm p (some pid) := by
  rw [newDirEntryAux_succ, if_neg h1, if_neg h2, h3]

theorem newDirEntryAux_eq_orphan (hasher : String → String) (fuel : Nat) (dm : DirMapSt)
    (p : String) (h1 : ¬ (alookup p dm.pathIdx).isSome) (h2 : p ≠ "")
    (h3 : alookup (parentOf p) dm.pathIdx = none) :
    newDirEntryAux hasher (fuel + 1) dm p
      = registerEntry hasher (newDirEntryAux hasher fuel dm (parentOf p)) p
          (alookup (parentOf p) (newDirEntryAux hasher fuel dm (parentOf p)).pathIdx) := by
  rw [newDirEntryAux_succ, if_neg h1, if_neg h2, h3]

theorem newDirEntryAux_keys_mono (hasher : String → String) :
    ∀ (fuel : Nat) (dm : DirMapSt) (p q : String),
    q ∈ akeys dm.pathIdx → q ∈ akeys (newDirEntryAux hasher fuel dm p).pathIdx := by
  intro fuel
  induction fuel with
  | zero =>
    intro dm p q hq
    simpa [newDirEntryAux] using hq
  | succ fuel ih =>
    intro dm p q hq
    by_cases h1 : (alookup p dm.pathIdx).isSome
    · rw [newDirEntryAux_eq_present hasher fuel dm p h1]
      exact hq
    · by_cases h2 : p = ""
      · subst h2
        rw [newDirEntryAux_eq_root hasher fuel dm h1]
        exact (mem_keys_registerEntry _ _ _ _ _).mpr (Or.inr hq)
      · rcases h3 : alookup (parentOf p) dm.pathIdx with _ | pid
        · rw [newDirEntryAux_eq_orphan hasher fuel dm p h1 h2 h3]
          exact (mem_keys_registerEntry _ _ _ _ _).mpr (Or.inr (ih dm (parentOf p) q hq))
        · rw [newDirEntryAux_eq_parent hasher fuel dm p pid h1 h2 h3]
          exact (mem_keys_registerEntry _ _ _ _ _).mpr (Or.inr hq)

theorem newDirEntryAux_keys_self (hasher : String → String) (fuel : Nat) (dm : DirMapSt)
    (p : String) : p ∈ akeys (newDirEntryAux hasher (fuel + 1) dm p).pathIdx := by
  by_cases h1 : (alookup p dm.pathIdx).isSome
  · rw [newDirEntryAux_eq_present hasher fuel dm p h1]
    exact (alookup_isSome_iff p dm.pathIdx).mp h1
  · by_cases h2 : p = ""
    · subst h2
      rw [newDirEntryAux_eq_root hasher fuel dm h1]
      exact (mem_keys_registerEntry _ _ _ _ _).mpr (Or.inl rfl)
    · rcases h3 : alookup (parentOf p) dm.pathIdx with _ | pid
      · rw [newDirEntryAux_eq_orphan hasher fuel dm p h1 h2 h3]
        exact (mem_keys_registerEntry _ _ _ _ _).mpr (Or.inl rfl)
      · rw [newDirEntryAux_eq_parent hasher fuel dm p pid h1 h2 h3]
        exact (mem_keys_registerEntry _ _ _ _ _).mpr (Or.inl rfl)

theorem newDirEntryAux_keys_subset (hasher : String → String) (S : List String)
    (hcl : ∀ q ∈ S, q ≠ "" → parentOf q ∈ S) :
    ∀ (fuel : Nat) (dm : DirMapSt) (p : String), p ∈ S →
    (∀ q ∈ akeys dm.pathIdx, q ∈ S) →
    ∀ q ∈ akeys (newDirEntryAux hasher fuel dm p).pathIdx, q ∈ S := by
  intro fuel
  induction fuel with
  | zero =>
    intro dm p hp hsub q hq
    exact hsub q (by simpa [newDirEntryAux] using hq)
  | succ fuel ih =>
    intro dm p hp hsub q hq
    by_cases h1 : (alookup p dm.pathIdx).isSome
    · rw [newDirEntryAux_eq_present hasher fuel dm p h1] at hq
      exact hsub q hq
    · by_cases h2 : p = ""
      · subst h2
        rw [newDirEntryAux_eq_root hasher fuel dm h1] at hq
        rcases (mem_keys_registerEntry _ _ _ _ _).mp hq with rfl | hold
        · exact hp
        · exact hsub q hold
      · rcases h3 : alookup (parentOf p) dm.pathIdx with _ | pid
        · rw [newDirEntryAux_eq_orphan hasher fuel dm p h1 h2 h3] at hq
          rcases (mem_keys_registerEntry _ _ _ _ _).mp hq with rfl | hold
          · exact hp
          · exact ih dm (parentOf p) (hcl p hp h2) hsub q hold
        · rw [newDirEntryAux_eq_parent hasher fuel dm p pid h1 h2 h3] at hq
          rcases (mem_keys_registerEntry _ _ _ _ _).mp hq with rfl | hold
          · exact hp
          · exact hsub q hold

theorem DmWF_newDirEntryAux (hasher : String → String) :
    ∀ (fuel : Nat) (dm : DirMapSt) (p : String), DmWF hasher dm →
    DmWF hasher (newDirEntryAux hasher fuel dm p) := by
  intro fuel
  induction fuel with
  | zero =>
    intro dm p hwf
    simpa [newDirEntryAux] using hwf
  | succ fuel ih =>
    intro dm p hwf
    by_cases h1 : (alookup p dm.pathIdx).isSome
    · rw [newDirEntryAux_eq_present hasher fuel dm p h1]
      exact hwf
    · by_cases h2 : p = ""
      · subst h2
        rw [newDirEntryAux_eq_root hasher fuel dm h1]
        exact DmWF_registerEntry hasher dm "" none hwf (by intro pid h; cases h)
      · rcases h3 : alookup (parentOf p) dm.pathIdx with _ | pid
        · rw [newDirEntryAux_eq_orphan hasher fuel dm p h1 h2 h3]
          refine DmWF_registerEntry hasher _ p _ (ih dm (parentOf p) hwf) ?_
          intro pid hpid
          have := (ih dm (parentOf p) hwf).pathLt (parentOf p, pid) (alookup_mem hpid)
          omega
        · rw [newDirEntryAux_eq_parent hasher fuel dm p pid h1 h2 h3]
          refine DmWF_registerEntry hasher dm p (some pid) hwf ?_
          intro pid2 hpid2
          have heq : pid2 = pid := (Option.some.inj hpid2).symm
          subst heq
          have := hwf.pathLt (parentOf p, pid2) (alookup_mem h3)
          omega

theorem DmWF_empty (hasher : String → String) : DmWF hasher ⟨[], 0, [], []⟩ := by
  constructor
  · intro pr hpr; cases hpr
  · intro pr hpr; cases hpr
  · simp [akeys]
  · intro p eid h; cases h

theorem DmWF_newDirMap (hasher : String → String) : DmWF hasher (newDirMap hasher) :=
  DmWF_newDirEntryAux hasher _ _ _ (DmWF_empty hasher)

theorem pairs_char (hasher : String → String) (dm : DirMapSt) (hwf : DmWF hasher dm)
    (pr : String × String) :
    pr ∈ pairs dm ↔ pr.2 ∈ akeys dm.pathIdx ∧ pr.1 = hasher pr.2 := by
  constructor
  · intro h
    obtain ⟨kv, hkv, hf⟩ := List.mem_filterMap.mp h
    obtain ⟨p, eid⟩ := kv
    have hlk : alookup p dm.pathIdx = some eid := mem_alookup_nodup hwf.nodup hkv
    obtain ⟨e, he, hh, hp2⟩ := hwf.consistent p eid hlk
    rw [show aget eid dm = alookup eid dm.arena from rfl] at he
    simp only [aget] at hf
    rw [he] at hf
    simp at hf
    constructor
    · rw [← hf]
      simpa [akeys] using List.mem_map_of_mem Prod.fst hkv
    · rw [← hf]
      simpa using hh
  · intro ⟨hmem, hh⟩
    obtain ⟨p, q⟩ := pr
    simp only [] at hmem hh
    have hsome : (alookup q dm.pathIdx).isSome := (alookup_isSome_iff q dm.pathIdx).mpr hmem
    rcases hlk : alookup q dm.pathIdx with _ | eid
    · rw [hlk] at hsome; cases hsome
    · obtain ⟨e, he, heh, hep⟩ := hwf.consistent q eid hlk
      refine List.mem_filterMap.mpr ⟨(q, eid), alookup_mem hlk, ?_⟩
      simp only [aget] at he ⊢
      rw [he]
      simp [heh, hh]


/-! ## The root-index round trip (C2) -/

theorem newDirEntry_keys_self (hasher : String → String) (dm : DirMapSt) (p : String) :
    p ∈ akeys (newDirEntry hasher dm p).pathIdx :=
  newDirEntryAux_keys_self hasher p.length dm p

theorem fold_keys_mono (hasher : String → String) (prs : List (String × String)) :
    ∀ (dm : DirMapSt) (q : String), q ∈ akeys dm.pathIdx →
    q ∈ akeys ((prs.foldl (fun dm pr => newDirEntry hasher dm pr.2) dm)).pathIdx := by
  induction prs with
  | nil => intro dm q hq; exact hq
  | cons pr t ih =>
    intro dm q hq
    exact ih (newDirEntry hasher dm pr.2) q (newDirEntryAux_keys_mono hasher _ dm pr.2 q hq)

theorem fold_keys_mem (hasher : String → String) (prs : List (String × String)) :
    ∀ (dm : DirMapSt) (pr : String × String), pr ∈ prs →
    pr.2 ∈ akeys ((prs.foldl (fun dm pr => newDirEntry hasher dm pr.2) dm)).pathIdx := by
  induction prs with
  | nil => intro dm pr hpr; cases hpr
  | cons hd t ih =>
    intro dm pr hpr
    rcases List.mem_cons.mp hpr with rfl | hmem
    · exact fold_keys_mono hasher t (newDirEntry hasher dm pr.2) pr.2
        (newDirEntry_keys_self hasher dm pr.2)
    · exact ih (newDirEntry hasher dm hd.2) pr hmem

theorem fold_keys_subset (hasher : String → String) (S : List String)
    (hcl : ∀ q ∈ S, q ≠ "" → parentOf q ∈ S) (prs : List (String × String)) :
    ∀ (dm : DirMapSt), (∀ pr ∈ prs, pr.2 ∈ S) → (∀ q ∈ akeys dm.pathIdx, q ∈ S) →
    ∀ q ∈ akeys ((prs.foldl (fun dm pr => newDirEntry hasher dm pr.2) dm)).pathIdx, q ∈ S := by
  induction prs with
  | nil => intro dm _ hsub q hq; exact hsub q hq
  | cons hd t ih =>
    intro dm hin hsub q hq
    refine ih (newDirEntry hasher dm hd.2) (fun pr hpr => hin pr (List.mem_cons_of_mem hd hpr))
      ?_ q hq
    exact newDirEntryAux_keys_subset hasher S hcl _ dm hd.2
      (hin hd (List.mem_cons_self hd t)) hsub

theorem fold_DmWF (hasher : String → String) (prs : List (String × String)) :
    ∀ (dm : DirMapSt), DmWF hasher dm →
    DmWF hasher ((prs.foldl (fun dm pr => newDirEntry hasher dm pr.2) dm)) := by
  induction prs with
  | nil => intro dm hwf; exact hwf
  | cons hd t ih =>
    intro dm hwf
    exact ih (newDirEntry hasher dm hd.2) (DmWF_newDirEntryAux hasher _ dm hd.2 hwf)

theorem newDirMap_keys (hasher : String → String) :
    akeys (newDirMap hasher).pathIdx = [""] := rfl

/-- **C2, counterexample.**  With the identity hash (`hash_type "none"`) and
the directory name `"a b"`, the persisted root index reads back wrongly: the
line `"a b a b"` is split at its FIRST space, so the reloaded tree holds the
path `"b a b"` instead of `"a b"`, and the `(storageKey, logicalPath)` pair
sets differ — the round-trip identity of the claim fails as stated. -/
theorem c2_counterexample :
    dirMapWriteContent spaceDm = " \na b a b\n"
    ∧ (pairs spaceDm).countP (fun pr => pr = ("a b", "a b")) = 1
    ∧ (spaceReload.map (fun dm' => (pairs dm').countP (fun pr => pr = ("a b", "a b"))))
        = some 0
    ∧ (spaceReload.map (fun dm' => (pairs dm').countP (fun pr => pr = ("b a b", "b a b"))))
        = some 1 := by
  decide

/-- **C2, amended.**  Persisting the root index writes one line
`"<storageKey> <logicalPath>\n"` per entry, sorted ascending by logical
path, and reloading reproduces the identical set of
`(storageKey, logicalPath)` pairs — provided no logical path contains a
newline and no storage key contains a newline or a space (true for the
hex-encoded md5/sha1/sha256 keys, but violable under `hash_type "none"`,
as the counterexample shows), for any well-formed parent-closed tree. -/
theorem c2_roundtrip_amended (hasher : String → String) (dm : DirMapSt)
    (hwf : DmWF hasher dm)
    (hroot : "" ∈ akeys dm.pathIdx)
    (hcl : ∀ q ∈ akeys dm.pathIdx, q ≠ "" → parentOf q ∈ akeys dm.pathIdx)
    (hchars : ∀ p ∈ akeys dm.pathIdx, p.data.all notNL = true
      ∧ (hasher p).data.all notNL = true ∧ (hasher p).data.all notSpace = true) :
    dirMapWriteContent dm
        = String.join ((sortStr (akeys dm.pathIdx)).map (fun p => hasher p ++ " " ++ p ++ "\n"))
    ∧ (sortStr (akeys dm.pathIdx)).Pairwise (fun a b => strLeB a b = true)
    ∧ ∃ dm', loadDirectoryMap hasher (dirMapWriteContent dm) = .ok dm'
        ∧ ∀ pr : String × String, pr ∈ pairs dm' ↔ pr ∈ pairs dm := by
  have hcontent : dirMapWriteContent dm
      = String.join ((sortStr (akeys dm.pathIdx)).map (fun p => hasher p ++ " " ++ p ++ "\n")) := by
    unfold dirMapWriteContent
    congr 1
    refine List.map_congr_left ?_
    intro p hp
    have hpk : p ∈ akeys dm.pathIdx := (mem_sortStr p _).mp hp
    rcases hlk : alookup p dm.pathIdx with _ | eid
    · exact absurd hpk ((alookup_none_iff p dm.pathIdx).mp hlk)
    · obtain ⟨e, he, hh, _⟩ := hwf.consistent p eid hlk
      simp [he, hh]
  refine ⟨hcontent, sortStr_sorted _, ?_⟩
  set L : List (String × String) := (sortStr (akeys dm.pathIdx)).map (fun p => (hasher p, p))
    with hL
  have hmemL : ∀ pr ∈ L, pr.2 ∈ akeys dm.pathIdx ∧ pr.1 = hasher pr.2 := by
    intro pr hpr
    rw [hL] at hpr
    obtain ⟨p, hp, rfl⟩ := List.mem_map.mp hpr
    exact ⟨(mem_sortStr p _).mp hp, rfl⟩
  have hlines : (sortStr (akeys dm.pathIdx)).map (fun p => hasher p ++ " " ++ p ++ "\n")
      = L.map (fun pr => pr.1 ++ " " ++ pr.2 ++ "\n") := by
    rw [hL, List.map_map]
    rfl
  have hsplit : splitNL (dirMapWriteContent dm).data
      = L.map (fun pr => pr.1.data ++ ' ' :: pr.2.data) := by
    rw [hcontent, hlines]
    refine splitNL_join_lines L ?_
    intro pr hpr
    obtain ⟨hpk, hh⟩ := hmemL pr hpr
    obtain ⟨c1, c2, _⟩ := hchars pr.2 hpk
    exact ⟨hh ▸ c2, c1⟩
  have hparse : parseAcc (splitNL (dirMapWriteContent dm).data) = (L, none) := by
    rw [hsplit]
    refine parseAcc_keyvals L ?_
    intro pr hpr
    obtain ⟨hpk, hh⟩ := hmemL pr hpr
    obtain ⟨_, _, c3⟩ := hchars pr.2 hpk
    exact hh ▸ c3
  have hload : loadDirectoryMap hasher (dirMapWriteContent dm)
      = .ok (L.foldl (fun dm pr => newDirEntry hasher dm pr.2) (newDirMap hasher)) := by
    unfold loadDirectoryMap
    rw [hparse]
  set dm2 : DirMapSt := L.foldl (fun dm pr => newDirEntry hasher dm pr.2) (newDirMap hasher)
    with hdm2
  refine ⟨dm2, hload, ?_⟩
  have hwf2 : DmWF hasher dm2 := fold_DmWF hasher L (newDirMap hasher) (DmWF_newDirMap hasher)
  have hkeys : ∀ q, q ∈ akeys dm2.pathIdx ↔ q ∈ akeys dm.pathIdx := by
    intro q
    constructor
    · intro hq
      refine fold_keys_subset hasher (akeys dm.pathIdx) hcl L (newDirMap hasher)
        (fun pr hpr => (hmemL pr hpr).1) ?_ q hq
      intro r hr
      rw [newDirMap_keys] at hr
      rcases List.mem_singleton.mp hr with rfl
      exact hroot
    · intro hq
      have hq2 : (hasher q, q) ∈ L := by
        rw [hL]
        exact List.mem_map_of_mem _ ((mem_sortStr q _).mpr hq)
      exact fold_keys_mem hasher L (newDirMap hasher) (hasher q, q) hq2
  intro pr
  rw [pairs_char hasher dm2 hwf2 pr, pairs_char hasher dm hwf pr, hkeys pr.2]

/-- **C2, witness.**  The amended round-trip theorem applied to the concrete
identity-hash tree holding `a`: the reload succeeds and reproduces the same
pair set. -/
theorem c2_roundtrip_witness :
    ∃ dm', loadDirectoryMap idHasher (dirMapWriteContent rtWitnessDm) = .ok dm'
      ∧ ∀ pr : String × String, pr ∈ pairs dm' ↔ pr ∈ pairs rtWitnessDm :=
  (c2_roundtrip_amended idHasher rtWitnessDm
    (DmWF_newDirEntryAux idHasher _ _ "a" (DmWF_newDirMap idHasher))
    (by decide) (by decide) (by decide)).2.2


/-! ## Purge is fail-fast but still persists (C5) -/

theorem purgeSpecTrace_arena_congr (dm dm' : DirMapSt) (h : dm.arena = dm'.arena) :
    ∀ (fuel : Nat) (eid : Nat), purgeSpecTrace dm fuel eid = purgeSpecTrace dm' fuel eid := by
  intro fuel
  induction fuel with
  | zero => intro eid; rfl
  | succ fuel ih =>
    intro eid
    have hc : childIds dm eid = childIds dm' eid := by
      unfold childIds aget
      rw [h]
    have hh : hashAt dm eid = hashAt dm' eid := by
      unfold hashAt aget
      rw [h]
    rw [purgeSpecTrace, purgeSpecTrace, hc, hh]
    congr 1
    congr 1
    exact List.map_congr_left (fun k _ => ih k)

theorem failFast_shift (b : Base) (r : Except Err Unit) (tr1 tr2 : List Act)
    (h1 : ∀ a ∈ tr1, actPurgeOk b a = true) (h2 : failFast b r tr2) :
    failFast b r (tr1 ++ tr2) := by
  constructor
  · intro hr a ha
    rcases List.mem_append.mp ha with h | h
    · exact h1 a h
    · exact h2.1 hr a h
  · intro e hr
    rcases h2.2 e hr with hall | ⟨pre, k, htr, hpre, hk⟩
    · refine Or.inl ?_
      intro a ha
      rcases List.mem_append.mp ha with h | h
      · exact h1 a h
      · exact hall a h
    · refine Or.inr ⟨tr1 ++ pre, k, ?_, ?_, hk⟩
      · rw [htr, List.append_assoc]
      · intro a ha
        rcases List.mem_append.mp ha with h | h
        · exact h1 a h
        · exact hpre a h

theorem purgeKids_props (b : Base) (step : DirMapSt → Nat → Except Err Unit × DirMapSt × List Act)
    (hA : ∀ dm k, (step dm k).2.1.arena = dm.arena)
    (hF : ∀ dm k, failFast b (step dm k).1 (step dm k).2.2) :
    ∀ (ks : List Nat) (dm : DirMapSt),
      (purgeKids step dm ks).2.1.arena = dm.arena
      ∧ failFast b (purgeKids step dm ks).1 (purgeKids step dm ks).2.2 := by
  intro ks
  induction ks with
  | nil =>
    intro dm
    constructor
    · rfl
    · constructor
      · intro _ a ha; cases ha
      · intro e he; cases he
  | cons k ks ih =>
    intro dm
    rcases hs : step dm k with ⟨r1, dm1, tr1⟩
    have hA1 : dm1.arena = dm.arena := by rw [show dm1 = (step dm k).2.1 by rw [hs]]; exact hA dm k
    have hF1 : failFast b r1 tr1 := by
      have := hF dm k
      rwa [hs] at this
    rcases r1 with e1 | u1
    · rw [show purgeKids step dm (k :: ks) = (.error e1, dm1, tr1) by rw [purgeKids, hs]]
      exact ⟨hA1, hF1⟩
    · rcases hk : purgeKids step dm1 ks with ⟨r2, dm2, tr2⟩
      have hrw : purgeKids step dm (k :: ks) = (r2, dm2, tr1 ++ tr2) := by
        rw [purgeKids, hs]
        simp only []
        rw [hk]
      rw [hrw]
      obtain ⟨ihA, ihF⟩ := ih dm1
      rw [hk] at ihA ihF
      refine ⟨by rw [ihA, hA1], ?_⟩
      exact failFast_shift b r2 tr1 tr2 (hF1.1 rfl) ihF

theorem purgeKids_trace (b : Base) (fuel : Nat)
    (hstep : ∀ dm k, (purgeRec b fuel dm k).2.1.arena = dm.arena
      ∧ ((purgeRec b fuel dm k).1 = .ok () →
          (purgeRec b fuel dm k).2.2 = purgeSpecTrace dm fuel k)) :
    ∀ (ks : List Nat) (dm : DirMapSt),
      ((purgeKids (fun dm1 k => purgeRec b fuel dm1 k) dm ks).1 = .ok () →
        (purgeKids (fun dm1 k => purgeRec b fuel dm1 k) dm ks).2.2
          = (ks.map (fun k => purgeSpecTrace dm fuel k)).flatten) := by
  intro ks
  induction ks with
  | nil =>
    intro dm _
    rfl
  | cons k ks ih =>
    intro dm hok
    rcases hs : purgeRec b fuel dm k with ⟨r1, dm1, tr1⟩
    have hA1 : dm1.arena = dm.arena := by
      rw [show dm1 = (purgeRec b fuel dm k).2.1 by rw [hs]]
      exact (hstep dm k).1
    rcases r1 with e1 | u1
    · rw [show purgeKids (fun dm1 k => purgeRec b fuel dm1 k) dm (k :: ks)
          = (.error e1, dm1, tr1) by rw [purgeKids, hs]] at hok
      cases hok
    · rcases hk : purgeKids (fun dm1 k => purgeRec b fuel dm1 k) dm1 ks with ⟨r2, dm2, tr2⟩
      have hrw : purgeKids (fun dm1 k => purgeRec b fuel dm1 k) dm (k :: ks)
          = (r2, dm2, tr1 ++ tr2) := by
        rw [purgeKids, hs]
        simp only []
        rw [hk]
      rw [hrw] at hok ⊢
      have htr1 : tr1 = purgeSpecTrace dm fuel k := by
        have := (hstep dm k).2
        rw [hs] at this
        exact this rfl
      have htr2 : tr2 = (ks.map (fun k => purgeSpecTrace dm1 fuel k)).flatten := by
        have := ih dm1
        rw [hk] at this
        exact this hok
      simp only [List.map_cons, List.flatten_cons]
      rw [htr1, htr2]
      congr 1
      congr 1
      exact List.map_congr_left (fun c _ => purgeSpecTrace_arena_congr dm1 dm hA1 fuel c)

theorem purgeRec_props (b : Base) :
    ∀ (fuel : Nat) (dm : DirMapSt) (eid : Nat),
      (purgeRec b fuel dm eid).2.1.arena = dm.arena
      ∧ failFast b (purgeRec b fuel dm eid).1 (purgeRec b fuel dm eid).2.2
      ∧ ((purgeRec b fuel dm eid).1 = .ok () →
          (purgeRec b fuel dm eid).2.2 = purgeSpecTrace dm fuel eid
          ∧ alookup (pathAt dm eid) (purgeRec b fuel dm eid).2.1.pathIdx = none) := by
  intro fuel
  induction fuel with
  | zero =>
    intro dm eid
    refine ⟨rfl, ⟨?_, ?_⟩, ?_⟩
    · intro h; cases h
    · intro e he
      exact Or.inl (fun a ha => by cases ha)
    · intro h; cases h
  | succ fuel ih =>
    intro dm eid
    have hstep : ∀ dm k, (purgeRec b fuel dm k).2.1.arena = dm.arena
        ∧ ((purgeRec b fuel dm k).1 = .ok () →
            (purgeRec b fuel dm k).2.2 = purgeSpecTrace dm fuel k) := by
      intro dm k
      exact ⟨(ih dm k).1, fun h => ((ih dm k).2.2 h).1⟩
    have hKF := purgeKids_props b (fun dm1 k => purgeRec b fuel dm1 k)
      (fun dm k => (ih dm k).1) (fun dm k => (ih dm k).2.1) (childIds dm eid) dm
    have hKT := purgeKids_trace b fuel hstep (childIds dm eid) dm
    rcases hk : purgeKids (fun dm1 k => purgeRec b fuel dm1 k) dm (childIds dm eid)
      with ⟨rk, dmk, trk⟩
    rw [hk] at hKF hKT
    obtain ⟨hKA, hKFf⟩ := hKF
    rcases rk with ek | uk
    · rw [show purgeRec b (fuel + 1) dm eid = (.error ek, dmk, trk) by rw [purgeRec, hk]]
      refine ⟨hKA, hKFf, ?_⟩
      intro h; cases h
    · have hall : ∀ a ∈ trk, actPurgeOk b a = true := hKFf.1 rfl
      rcases hp : b.purgeRes (hashAt dmk eid) with _ | err
      · have hrw : purgeRec b (fuel + 1) dm eid
            = (.ok (), { dmk with pathIdx := aerase (pathAt dmk eid) dmk.pathIdx
                                  hashIdx := aerase (hashAt dmk eid) dmk.hashIdx },
               trk ++ [.purge (hashAt dmk eid)]) := by
          rw [purgeRec, hk]
          simp only []
          rw [hp]
        rw [hrw]
        have hhash : hashAt dmk eid = hashAt dm eid := by unfold hashAt aget; rw [hKA]
        have hpath : pathAt dmk eid = pathAt dm eid := by unfold pathAt aget; rw [hKA]
        refine ⟨hKA, ⟨?_, ?_⟩, ?_⟩
        · intro _ a ha
          rcases List.mem_append.mp ha with h | h
          · exact hall a h
          · rcases List.mem_singleton.mp h with rfl
            simp [actPurgeOk, hp]
        · intro e he; cases he
        · intro _
          constructor
          · have htrk : trk
                = (List.map (fun k => purgeSpecTrace dm fuel k) (childIds dm eid)).flatten :=
              hKT rfl
            show trk ++ [Act.purge (hashAt dmk eid)] = _
            rw [purgeSpecTrace, hhash, htrk]
          · show alookup (pathAt dm eid) (aerase (pathAt dmk eid) dmk.pathIdx) = none
            rw [← hpath]
            exact alookup_aerase_self (pathAt dmk eid) dmk.pathIdx
      · have hrw : purgeRec b (fuel + 1) dm eid
            = (.error err, dmk, trk ++ [.purge (hashAt dmk eid)]) := by
          rw [purgeRec, hk]
          simp only []
          rw [hp]
        rw [hrw]
        refine ⟨hKA, ⟨?_, ?_⟩, ?_⟩
        · intro h; cases h
        · intro e he
          refine Or.inr ⟨trk, hashAt dmk eid, rfl, hall, ?_⟩
          rw [hp]
          cases he
          rfl
        · intro h; cases h

/-- **C5, counterexample.**  Purge of `a` with children `a/x`, `a/y` where
the backing delete of `a/x` fails: the recursion aborts at the first
failure — the sibling `a/y` and the node `a` are never attempted (their
containers are not purged), contradicting "continues best-effort on a
per-node failure"; the root index is still persisted and the first error
returned. -/
theorem c5_counterexample :
    purgeFailRun.1 = .error (.base 7)
    ∧ purgeFailRun.2.2.countP (fun a => a = .purge "a/x") = 1
    ∧ purgeFailRun.2.2.countP (fun a => a = .purge "a/y") = 0
    ∧ purgeFailRun.2.2.countP (fun a => a = .purge "a") = 0
    ∧ purgeFailRun.2.2.getLast? = some (.put "map" " \na a\na/x a/x\na/y a/y\n") := by
  decide

/-- **C5, amended.**  Purge without the bulk-delete capability fails
`Unsupported` with no state change; an unindexed path fails `NotFound`;
otherwise the recursion is depth-first, children before self, but
FAIL-FAST: at the first per-node failure it aborts (no later container
delete is attempted — the trace ends at the failing delete), the root index
is still persisted for whatever succeeded, and the first error (or the index
write's own error, if that write fails) is returned; on full success the
trace is exactly the children-before-self spec trace and the node leaves the
path index. -/
theorem c5_purge_amended (b : Base) (f : FsSt) (dir : String) (fuel : Nat) :
    (¬ b.canPurge → Purge b f dir fuel = (.error .cantPurge, f, []))
    ∧ (b.canPurge → alookup (goJoin f.root dir) f.dirMap.pathIdx = none →
        Purge b f dir fuel = (.error .dirNotFound, f, []))
    ∧ (∀ eid, b.canPurge → alookup (goJoin f.root dir) f.dirMap.pathIdx = some eid →
        ∀ r dm1 tr, purgeRec b fuel f.dirMap eid = (r, dm1, tr) →
          Purge b f dir fuel =
            ((match b.putRes "map" with | some werr => .error werr | none => r),
             { f with dirMap := dm1 }, tr ++ [.put "map" (dirMapWriteContent dm1)])
          ∧ failFast b r tr
          ∧ (r = .ok () → tr = purgeSpecTrace f.dirMap fuel eid
              ∧ alookup (pathAt f.dirMap eid) dm1.pathIdx = none)) := by
  refine ⟨?_, ?_, ?_⟩
  · intro hcap
    rw [Purge, if_pos hcap]
  · intro hcap hlk
    rw [Purge, if_neg (by simpa using hcap)]
    simp only []
    rw [hlk]
  · intro eid hcap hlk r dm1 tr hrec
    have hprops := purgeRec_props b fuel f.dirMap eid
    rw [hrec] at hprops
    refine ⟨?_, hprops.2.1, fun h => hprops.2.2 h⟩
    rw [Purge, if_neg (by simpa using hcap)]
    simp only []
    rw [hlk]
    simp only []
    rw [hrec]
    simp only [dirMapWrite]
    rcases hw : b.putRes "map" with _ | werr
    · rfl
    · rfl

/-- **C5, witness.**  The amended theorem applied to a store without the
bulk-delete capability: Purge returns `Unsupported` and changes nothing. -/
theorem c5_purge_witness :
    Purge { okBase with canPurge := false } fs0 "a" 5
      = (.error .cantPurge, fs0, []) :=
  (c5_purge_amended { okBase with canPurge := false } fs0 "a" 5).1 (by decide)


/-! ## Rmdir outcomes (C6) -/

/-- **C6, counterexample.**  `Rmdir ""` on a fresh tree (rooted at `""`):
the path is indexed (it is the root), its table loads empty and it has no
children, so none of the claimed outcomes (NotFound, BadState, NotEmpty,
successful removal) applies — instead `removeEntry` hits the remove-root
precondition violation and the call panics, an outcome the claim does not
list. -/
theorem c6_counterexample :
    outMsg (Rmdir okBase fs0 "") = some "cannot remove root directory"
    ∧ (alookup (goJoin fs0.root "") fs0.dirMap.pathIdx).isSome = true := by
  decide

/-- **C6, amended.**  `Rmdir` fails `NotFound` when the path is not indexed,
`BadState` (wrapped load error) when the file table cannot be loaded,
`NotEmpty` when any file or child exists; otherwise it removes the node,
persists the root index and purges the backing container treating `NotFound`
as success — and these are the only outcomes EXCEPT for the tree root, which
cannot be removed: an empty, loadable root makes `removeEntry` panic
("cannot remove root directory") instead of producing any of the listed
results. -/
theorem c6_rmdir_amended (b : Base) (f : FsSt) (dir : String) :
    (alookup (goJoin f.root dir) f.dirMap.pathIdx = none →
      Rmdir b f dir = .ran (.error .dirNotFound, f, []))
    ∧ (∀ eid, alookup (goJoin f.root dir) f.dirMap.pathIdx = some eid →
        (∀ err dm1 tr, loadFilesAt b f.dirMap eid = (.error err, dm1, tr) →
          Rmdir b f dir = .ran (.error
              (.wrap "directory in a bad state, refusing to modify" err),
            { f with dirMap := dm1 }, tr))
        ∧ (∀ files dm1 tr, loadFilesAt b f.dirMap eid = (.ok files, dm1, tr) →
            (files ≠ [] ∨ childIds dm1 eid ≠ [] →
              Rmdir b f dir = .ran (.error .dirNotEmpty, { f with dirMap := dm1 }, tr))
            ∧ (files = [] → childIds dm1 eid = [] →
                (∀ msg, removeEntry dm1 (goJoin f.root dir) = .crashed msg →
                  Rmdir b f dir = .crashed msg)
                ∧ (∀ dm2, removeEntry dm1 (goJoin f.root dir) = .ran dm2 →
                    (∀ werr, b.putRes "map" = some werr →
                      Rmdir b f dir = .ran (.error werr, { f with dirMap := dm2 },
                        tr ++ [.put "map" (dirMapWriteContent dm2)]))
                    ∧ (b.putRes "map" = none →
                        Rmdir b f dir = .ran
                          ((match b.purgeRes (hashAt dm1 eid) with
                            | some .dirNotFound => .ok ()
                            | some err => .error err
                            | none => .ok ()),
                           { f with dirMap := dm2 },
                           tr ++ [.put "map" (dirMapWriteContent dm2)]
                              ++ [.purge (hashAt dm1 eid)])))))) := by
  constructor
  · intro hlk
    rw [Rmdir]
    simp only []
    rw [hlk]
  · intro eid hlk
    constructor
    · intro err dm1 tr hload
      rw [Rmdir]
      simp only []
      rw [hlk]
      simp only []
      rw [hload]
    · intro files dm1 tr hload
      constructor
      · intro hne
        rw [Rmdir]
        simp only []
        rw [hlk]
        simp only []
        rw [hload]
        simp only []
        rw [if_pos ?_]
        rcases hne with h | h
        · exact Or.inl (by simpa [List.length_pos] using h)
        · exact Or.inr (by simpa [List.length_pos] using h)
      · intro hfiles hkids
        have hcond : ¬ (files.length > 0 ∨ (childIds dm1 eid).length > 0) := by
          simp [hfiles, hkids]
        constructor
        · intro msg hrem
          rw [Rmdir]
          simp only []
          rw [hlk]
          simp only []
          rw [hload]
          simp only []
          rw [if_neg hcond, hrem]
        · intro dm2 hrem
          constructor
          · intro werr hw
            rw [Rmdir]
            simp only []
            rw [hlk]
            simp only []
            rw [hload]
            simp only []
            rw [if_neg hcond, hrem]
            simp only [dirMapWrite]
            rw [hw]
          · intro hw
            rw [Rmdir]
            simp only []
            rw [hlk]
            simp only []
            rw [hload]
            simp only []
            rw [if_neg hcond, hrem]
            simp only [dirMapWrite]
            rw [hw]
            simp only [hashAt]
            rcases hpu : b.purgeRes (((aget eid dm1).map (fun x => x.hash)).getD "") with _ | perr
            · rw [hpu]
            · rw [hpu]
              cases perr <;> rfl

/-- **C6, witness.**  The amended theorem applied to an unindexed path on a
fresh tree: `Rmdir` fails `NotFound`. -/
theorem c6_rmdir_witness :
    Rmdir okBase fs0 "zzz" = .ran (.error .dirNotFound, fs0, []) :=
  (c6_rmdir_amended okBase fs0 "zzz").1 (by decide)


/-! ## Newline rejection (C7) -/


/-- **C7, counterexample.**  The name `"a\n/.."` contains an embedded
newline, yet `Mkdir` succeeds and mutates the index: `path.Join` cleans the
path BEFORE the newline check, the `".."` swallows the newline-bearing
component, and the entry `"."` is created. -/
theorem c7_counterexample :
    hasNL "a\n/.." = true
    ∧ (Mkdir okBase fs0 "a\n/..").1 = .ok ()
    ∧ (alookup "." (Mkdir okBase fs0 "a\n/..").2.1.dirMap.pathIdx).isSome = true
    ∧ ((Mkdir okBase fs0 "a\n/..").2.1.dirMap == fs0.dirMap) = false := by
  decide

/-- **C7, amended.**  `put` always rejects a remote containing a newline
with `InvalidName` and no mutation; `Mkdir` rejects a directory name with
`InvalidName` and no mutation provided the root-joined, CLEANED path still
contains the newline and is not already indexed (path cleaning can remove
the newline-bearing component, as the counterexample shows; an
already-indexed path returns success before the check). -/
theorem c7_newline_amended (b : Base) (f : FsSt) (dir remote : String) :
    (hasNL (goJoin f.root dir) = true →
      alookup (goJoin f.root dir) f.dirMap.pathIdx = none →
      Mkdir b f dir = (.error (.invalidName (goJoin f.root dir)), f, []))
    ∧ (hasNL remote = true → put b f remote = (.error (.invalidName remote), f, [])) := by
  constructor
  · intro hnl hlk
    rw [Mkdir]
    simp only []
    rw [if_neg (by simp [hlk]), if_pos hnl]
  · intro hnl
    rw [put, if_pos hnl]

/-- **C7, witness.**  The amended theorem at the newline name `"x\ny"` on a
fresh tree: both `Mkdir` and `put` fail `InvalidName` without mutation. -/
theorem c7_newline_witness :
    Mkdir okBase fs0 "x\ny" = (.error (.invalidName (goJoin fs0.root "x\ny")), fs0, [])
    ∧ put okBase fs0 "x\ny" = (.error (.invalidName "x\ny"), fs0, []) :=
  ⟨(c7_newline_amended okBase fs0 "x\ny" "x\ny").1 (by decide) (by decide),
   (c7_newline_amended okBase fs0 "x\ny" "x\ny").2 (by decide)⟩

/-! ## The name-reconstruction record (C8) -/

theorem rewriteLoop_records (b : Base) (entryHash dstLocation : String) :
    ∀ (files : List (String × String)),
    (rewriteLoop b entryHash dstLocation files).1 = .ok () →
    ∀ pr ∈ files,
      .put (goJoinList [entryHash, pr.2, "name"]) (goJoinList [dstLocation, pr.1] ++ "\n")
        ∈ (rewriteLoop b entryHash dstLocation files).2 := by
  intro files
  induction files with
  | nil =>
    intro _ pr hpr
    cases hpr
  | cons hd t ih =>
    intro hok pr hpr
    obtain ⟨fileName, h⟩ := hd
    rcases h1 : b.newObjRes (goJoinList [entryHash, h, "name"]) with _ | e1
    · rcases h2 : b.removeRes (goJoinList [entryHash, h, "name"]) with _ | e2
      · rcases h3 : b.putRes (goJoinList [entryHash, h, "name"]) with _ | e3
        · rcases h4 : rewriteLoop b entryHash dstLocation t with ⟨r4, tr4⟩
          have hrw : rewriteLoop b entryHash dstLocation ((fileName, h) :: t)
              = (r4, [.newObj (goJoinList [entryHash, h, "name"]),
                      .removeObj (goJoinList [entryHash, h, "name"]),
                      .put (goJoinList [entryHash, h, "name"])
                        (goJoinList [dstLocation, fileName] ++ "\n")] ++ tr4) := by
            rw [rewriteLoop]
            simp only []
            rw [h1]
            simp only []
            rw [h2]
            simp only []
            rw [h3]
            simp only []
            rw [h4]
          rw [hrw] at hok ⊢
          rcases List.mem_cons.mp hpr with heq | hmem
          · rw [heq]
            simp
          · have := ih (by simpa [h4] using hok) pr hmem
            rw [h4] at this
            simp only [List.mem_append]
            exact Or.inr this
        · have hrw : (rewriteLoop b entryHash dstLocation ((fileName, h) :: t)).1
              = .error e3 := by
            rw [rewriteLoop]
            simp only []
            rw [h1]
            simp only []
            rw [h2]
            simp only []
            rw [h3]
          rw [hok] at hrw
          cases hrw
      · have hrw : (rewriteLoop b entryHash dstLocation ((fileName, h) :: t)).1
            = .error (.wrap "cannot delete name file" e2) := by
          rw [rewriteLoop]
          simp only []
          rw [h1]
          simp only []
          rw [h2]
        rw [hok] at hrw
        cases hrw
    · have hrw : (rewriteLoop b entryHash dstLocation ((fileName, h) :: t)).1
          = .error (.wrap "cannot find name file to delete" e1) := by
        rw [rewriteLoop]
        simp only []
        rw [h1]
      rw [hok] at hrw
      cases hrw

theorem aget_aset_self (i : Nat) (x : EntryData) (dm : DirMapSt) :
    aget i (aset i x dm) = some x := by
  rw [aget, aset]
  simp only []
  rw [alookup_ainsert]
  simp

theorem ainsert_nil {κ α : Type} [DecidableEq κ] (k : κ) (v : α) :
    ainsert k v ([] : List (κ × α)) = [(k, v)] := rfl

theorem dirEntryWriteContent_single (x : EntryData) (n h : String) :
    dirEntryWriteContent { x with files := some [(n, h)] } = h ++ " " ++ n ++ "\n" := by
  rw [dirEntryWriteContent]
  simp [akeys, sortStr, insertSorted, alookup, String.join]

theorem dirEntryWrite_single (b : Base) (x : EntryData) (n h : String)
    (hp : b.putRes (goJoin x.hash "map") = none) :
    dirEntryWrite b { x with files := some [(n, h)] } =
      (.ok (), [.put (goJoin x.hash "map") (h ++ " " ++ n ++ "\n")]) := by
  rw [dirEntryWrite]
  simp only []
  rw [hp]
  simp only []
  rw [dirEntryWriteContent_single]

/-- **C8, amended.**  A `put` of `remote` into an indexed parent directory
(entry `e`, file table not yet loaded and not yet materialized in the
store), with the backing store accepting every call: the call succeeds and
its backing-store trace is exactly the protocol — create the two
containers, write the name-reconstruction record `remote ++ "\n"` at
`<dirKey>/<fileKey>/name` (one line: the logical path, one terminating
newline), write the payload at `<dirKey>/<fileKey>/data`, then read and
persist the parent's file index with the new `"<fileKey> <filename>"`
line.  `rewriteNameFiles`'s loop restores the same format at the new
logical location for every file of a directory it completes.  `Copy`,
however, writes the SOURCE object's path `srcRemote ++ "\n"` into the
name record at the DESTINATION-derived key, so its record holds the
destination's logical path only when the two coincide. -/
theorem c8_name_record_amended (b : Base) (f : FsSt) (remote : String) (eid : Nat)
    (fileHash : String) (e : EntryData)
    (hnl : hasNL remote = false)
    (hres : toHash f remote = (some (eid, fileHash), fileHash))
    (hent : aget eid f.dirMap = some e)
    (hfiles : e.files = none)
    (hmk1 : b.mkdirRes e.hash = none)
    (hmk2 : b.mkdirRes (goJoinList [e.hash, fileHash]) = none)
    (hpn : b.putRes (goJoinList [e.hash, fileHash, "name"]) = none)
    (hpd : b.putRes (goJoinList [e.hash, fileHash, "data"]) = none)
    (hrm : b.readMap (goJoin e.hash "map") = .notFound)
    (hpm : b.putRes (goJoin e.hash "map") = none) :
    (∃ f', put b f remote = (.ok (), f',
      [.mkdir e.hash, .mkdir (goJoinList [e.hash, fileHash]),
       .put (goJoinList [e.hash, fileHash, "name"]) (remote ++ "\n"),
       .put (goJoinList [e.hash, fileHash, "data"]) "<data>",
       .readMap (goJoin e.hash "map"),
       .put (goJoin e.hash "map") (fileHash ++ " " ++ baseOf remote ++ "\n")]))
    ∧ splitNL (remote ++ "\n").data = [remote.data]
    ∧ (∀ entryHash dstLocation files,
        (rewriteLoop b entryHash dstLocation files).1 = .ok () →
        ∀ pr ∈ files,
          .put (goJoinList [entryHash, pr.2, "name"]) (goJoinList [dstLocation, pr.1] ++ "\n")
            ∈ (rewriteLoop b entryHash dstLocation files).2)
    ∧ (∀ (g : FsSt) (srcRemote srcKey dst : String) (did : Nat) (dHash : String)
        (d : EntryData) (fl : List (String × String)),
        b.canCopy = true →
        hasNL dst = false →
        toHash g dst = (some (did, dHash), dHash) →
        aget did g.dirMap = some d →
        d.files = some fl →
        b.mkdirRes d.hash = none →
        b.mkdirRes (goJoinList [d.hash, dHash]) = none →
        b.putRes (goJoinList [d.hash, dHash, "name"]) = none →
        .put (goJoinList [d.hash, dHash, "name"]) (srcRemote ++ "\n")
          ∈ (Copy b g srcRemote srcKey dst).2.2) := by
  refine ⟨?_, ?_, fun eh dl fl => rewriteLoop_records b eh dl fl, ?_⟩
  · refine ⟨{ f with dirMap := aset eid { e with files := some (ainsert (baseOf remote) fileHash []) } (aset eid { e with files := some [] } f.dirMap) }, ?_⟩
    have hdh : ((aget eid f.dirMap).map (fun x => x.hash)).getD "" = e.hash := by
      rw [hent]
      rfl
    have hprep : prepareDest b remote e.hash fileHash =
        (none, [.mkdir e.hash, .mkdir (goJoinList [e.hash, fileHash]),
          .put (goJoinList [e.hash, fileHash, "name"]) (remote ++ "\n")]) := by
      rw [prepareDest]
      simp only []
      rw [hmk1]
      simp only []
      rw [hmk2]
      simp only []
      rw [hpn]
    have hff : fillFiles b e =
        (.ok { e with files := some [] }, [.readMap (goJoin e.hash "map")]) := by
      rw [fillFiles, if_neg (by simp [hfiles])]
      simp only []
      rw [hrm]
    have hload : loadFilesAt b f.dirMap eid =
        (.ok [], aset eid { e with files := some [] } f.dirMap,
         [.readMap (goJoin e.hash "map")]) := by
      rw [loadFilesAt]
      rw [hent]
      simp only []
      rw [hff]
      rfl
    rw [put, if_neg (by simp [hnl])]
    simp only []
    rw [hres]
    simp only []
    rw [hdh, hprep]
    simp only []
    rw [hpd]
    simp only []
    rw [hload]
    simp only []
    rw [aget_aset_self]
    simp only []
    rw [ainsert_nil, aget_aset_self]
    simp only []
    rw [dirEntryWrite_single b _ (baseOf remote) fileHash hpm]
    rfl
  · have hd : (remote ++ "\n").data = remote.data ++ ['\n'] := by
      rw [String.data_append]
    rw [hd]
    have hr : remote.data.all notNL = true := by
      unfold hasNL at hnl
      rw [List.all_eq_true]
      intro c hc
      unfold notNL
      by_cases hcc : c = '\n'
      · subst hcc
        have htr : (remote.data.any (· == '\n')) = true :=
          List.any_eq_true.mpr ⟨'\n', hc, by simp⟩
        rw [hnl] at htr
        exact absurd htr Bool.false_ne_true
      · simpa using hcc
    rw [show remote.data ++ ['\n'] = remote.data ++ '\n' :: [] from rfl]
    rw [splitNL_cons_line remote.data [] hr]
    rfl
  · intro g srcRemote srcKey dst did dHash d fl hcc hnl2 htoh hget hfl hm1 hm2 hpn2
    have hprep2 : prepareDest b srcRemote d.hash dHash =
        (none, [.mkdir d.hash, .mkdir (goJoinList [d.hash, dHash]),
          .put (goJoinList [d.hash, dHash, "name"]) (srcRemote ++ "\n")]) := by
      rw [prepareDest]
      simp only []
      rw [hm1]
      simp only []
      rw [hm2]
      simp only []
      rw [hpn2]
    rw [Copy]
    rw [if_neg (by simp [hcc])]
    rw [if_neg (by simp [hnl2])]
    simp only []
    rw [htoh]
    simp only []
    rw [show ((aget did g.dirMap).map (fun x => x.hash)).getD "" = d.hash from by rw [hget]; rfl]
    rw [hprep2]
    simp only []
    rw [hget]
    simp only []
    rcases hw : dirEntryWrite b d with ⟨res, tr3⟩
    rcases res with err | u
    · simp
    · simp only []
      rcases hcr : b.copyRes srcKey (goJoinList [d.hash, dHash, "data"]) with _ | err2 <;>
        simp


/-- **C8, counterexample.**  Copying the file at logical path `"a/x"` to the
destination `"b/y"` (identity hash, `b` indexed with a loaded table, every
backing call succeeding) succeeds, and the single name record written under
the destination's keys (`"b/y/name"`) holds the SOURCE path `"a/x\n"`, not
the destination's logical path `"b/y\n"` — `Copy` passes `src.Remote()` to
`prepareDest` as the overlay, refuting the claim for Copy. -/
theorem c8_copy_counterexample :
    (Copy okBase copyFs "a/x" "a/x/data" "b/y").1 = .ok ()
    ∧ (Copy okBase copyFs "a/x" "a/x/data" "b/y").2.2.countP
        (fun a => a == .put "b/y/name" ("a/x" ++ "\n")) = 1
    ∧ (Copy okBase copyFs "a/x" "a/x/data" "b/y").2.2.countP
        (fun a => a == .put "b/y/name" ("b/y" ++ "\n")) = 0
    ∧ ("a/x" : String) ≠ "b/y" := by
  decide

/-- **C8, witness.**  The amended theorem applied concretely: `put` of `"x"`
on a fresh identity-hash tree writes the name record `"x\n"` (one line) at
`<dirKey>/<fileKey>/name`, and `Copy` of source `"a/x"` to destination
`"b/y"` writes the name record `"a/x\n"` at the destination-derived key. -/
theorem c8_name_record_amended_witness :
    (∃ f', put okBase fs0 "x" = (.ok (), f',
      [.mkdir "", .mkdir (goJoinList ["", "x"]),
       .put (goJoinList ["", "x", "name"]) ("x" ++ "\n"),
       .put (goJoinList ["", "x", "data"]) "<data>",
       .readMap (goJoin "" "map"),
       .put (goJoin "" "map") ("x" ++ " " ++ baseOf "x" ++ "\n")]))
    ∧ splitNL (("x" : String) ++ "\n").data = [("x" : String).data]
    ∧ .put (goJoinList ["b", "y", "name"]) ("a/x" ++ "\n")
        ∈ (Copy okBase copyFs "a/x" "a/x/data" "b/y").2.2 :=
  have h := c8_name_record_amended okBase fs0 "x" 0 "x" ⟨"", "", none, [], 0, none⟩
    (by decide) (by decide) (by decide) rfl rfl rfl rfl rfl rfl rfl
  ⟨h.1, h.2.1, h.2.2.2 copyFs "a/x" "a/x/data" "b/y" 1 "y"
    ⟨"b", "b", some 0, [], 0, some [("q", "q")]⟩ [("q", "q")]
    rfl (by decide) (by decide) (by decide) rfl rfl rfl rfl⟩


/-! ## `NewObject` branch behavior (C10) -/

/-- **C10.**  `NewObject` branch behavior: `IsDir` when the remote itself is
indexed as a directory; `ObjNotFound` when the parent directory is not
indexed; a file-table load error is propagated, not reported as not-found;
`ObjNotFound` when the leaf is absent from the parent's loaded table. -/
theorem c10_newobject (b : Base) (f : FsSt) (remote : String) :
    ((alookup remote f.dirMap.pathIdx).isSome = true →
      NewObject b f remote = (.error .isDir, f, []))
    ∧ ((alookup remote f.dirMap.pathIdx).isSome = false →
      (toHash f remote).1 = none →
      NewObject b f remote = (.error .objNotFound, f, []))
    ∧ (∀ eid fileHash err dm1 tr,
      (alookup remote f.dirMap.pathIdx).isSome = false →
      toHash f remote = (some (eid, fileHash), fileHash) →
      loadFilesAt b f.dirMap eid = (.error err, dm1, tr) →
      NewObject b f remote = (.error err, { f with dirMap := dm1 }, tr))
    ∧ (∀ eid fileHash files dm1 tr,
      (alookup remote f.dirMap.pathIdx).isSome = false →
      toHash f remote = (some (eid, fileHash), fileHash) →
      loadFilesAt b f.dirMap eid = (.ok files, dm1, tr) →
      alookup (baseOf remote) files = none →
      NewObject b f remote = (.error .objNotFound, { f with dirMap := dm1 }, tr)) := by
  refine ⟨?_, ?_, ?_, ?_⟩
  · intro h
    rw [NewObject, if_pos h]
  · intro h1 h2
    rw [NewObject, if_neg (by simp [h1])]
    simp only []
    rcases he : toHash f remote with ⟨o, fh⟩
    rw [he] at h2
    simp only [] at h2
    subst h2
    rfl
  · intro eid fileHash err dm1 tr h1 h2 h3
    rw [NewObject, if_neg (by simp [h1])]
    simp only []
    rw [h2]
    simp only []
    rw [h3]
  · intro eid fileHash files dm1 tr h1 h2 h3 h4
    rw [NewObject, if_neg (by simp [h1])]
    simp only []
    rw [h2]
    simp only []
    rw [h3]
    simp only []
    rw [if_neg (by simp [h4])]

/-- **C10, witness.**  All four branches exercised concretely: the indexed
directory `"a"`, the unindexed parent `"q"`, a failing table load, and a
missing leaf in a loaded (empty) table. -/
theorem c10_newobject_witness :
    NewObject okBase fsA "a" = (.error .isDir, fsA, [])
    ∧ NewObject okBase fs0 "q/x" = (.error .objNotFound, fs0, [])
    ∧ NewObject readFailBase fsA "a/x"
        = (.error (.base 3), { fsA with dirMap := fsA.dirMap }, [.readMap "a/map"])
    ∧ NewObject okBase fsA "a/x"
        = (.error .objNotFound, { fsA with dirMap := dmA }, [.readMap "a/map"]) :=
  ⟨(c10_newobject okBase fsA "a").1 (by decide),
   (c10_newobject okBase fs0 "q/x").2.1 (by decide) (by decide),
   (c10_newobject readFailBase fsA "a/x").2.2.1 1 "x" (.base 3) fsA.dirMap
     [.readMap "a/map"] (by decide) (by decide) (by decide),
   (c10_newobject okBase fsA "a/x").2.2.2 1 "x" [] dmA
     [.readMap "a/map"] (by decide) (by decide) (by decide) (by decide)⟩


/-! ## The tree invariant after `Purge` (C1), the cached failed load (C3),
the skipped `DirMove` child (C4) and the notification path (C9) -/

/-- **C1.**  Counterexample to the tree invariant: after
`Mkdir "a"; Purge "a"; Mkdir "a"` on a fresh tree (`stalePurgeSt`), the
root's `Children` list holds TWO distinct live entries (ids 1 and 2), both
with logical path `"a"` and storage key `"a"`: `Purge` deletes the purged
node from the two indices but never unlinks it from its parent's
`Children`, so the re-created directory coexists with the stale node —
two distinct reachable entries share a `LogicalPath` and a `StorageKey`. -/
theorem c1_purge_stale_child :
    childIds stalePurgeSt.dirMap 0 = [1, 2]
    ∧ pathAt stalePurgeSt.dirMap 1 = "a"
    ∧ pathAt stalePurgeSt.dirMap 2 = "a"
    ∧ hashAt stalePurgeSt.dirMap 1 = "a"
    ∧ hashAt stalePurgeSt.dirMap 2 = "a"
    ∧ alookup "a" stalePurgeSt.dirMap.pathIdx = some 2
    ∧ (aget 1 stalePurgeSt.dirMap).isSome = true
    ∧ (aget 2 stalePurgeSt.dirMap).isSome = true := by
  decide

/-- **C3.**  Counterexample in the `backend/hashmap/entries.go` revision of
`dirEntry.Files` (`FilesOld`): when the first load fails (`readFailBase`
errors every `map` read), the error is returned but the table is left
assigned, so the SECOND access succeeds with an empty table and no backing
read — the failed load is cached as an empty mapping, contradicting the
claimed retry.  The later revision (`Files`, via `fillFiles`) retries and
fails again, as the claim describes. -/
theorem c3_files_cached_empty :
    (FilesOld readFailBase unloadedEntry).1 = .error (.base 3)
    ∧ FilesOld readFailBase (FilesOld readFailBase unloadedEntry).2.1
        = (.ok [], (FilesOld readFailBase unloadedEntry).2.1, [])
    ∧ (Files readFailBase unloadedEntry).1 = .error (.base 3)
    ∧ (Files readFailBase (Files readFailBase unloadedEntry).2.1).1 = .error (.base 3) := by
  decide

/-- **C4.**  Counterexample to the `DirMove` recursion claim: moving `a`
(children `a/x`, `a/y`, `a/z`) to `c` with every backing call succeeding
(`dmv`), the call reports success, yet `a/y` is never moved (zero
`move "a/y" …` acts, `a/y` still in the source path index, `c/y` absent
from the destination) and `move "a/z" "c/z"` is issued twice: the loop
ranges over the parent's `Children` slice while `removeEntry` shifts it in
place, so the second child is skipped and the third seen twice. -/
theorem c4_dirmove_skips_child :
    dmvParts.map (fun q => q.1) = some (.ok ())
    ∧ dmvParts.map (fun q => alookup "a/y" q.2.1.pathIdx) = some (some 3)
    ∧ dmvParts.map (fun q => alookup "c/y" q.2.2.1.pathIdx) = some none
    ∧ dmvParts.map (fun q => q.2.2.2.countP (fun a => a == .move "a/y" "c/y")) = some 0
    ∧ dmvParts.map (fun q => q.2.2.2.countP (fun a => a == .move "a/x" "c/x")) = some 1
    ∧ dmvParts.map (fun q => q.2.2.2.countP (fun a => a == .move "a/z" "c/z")) = some 2 := by
  decide

/-- **C9.**  Counterexample to the emitted-path claim: with directory `"a"`
(entry 1) holding the file table `x -> x` in the backing store, the event
on key `"a/x/data"` fires the consumer callback with the bare filename
`"x"`, not the file's logical path `"a/x"` (`path.Join` of the entry's path
and the filename): the translator passes the matched table key through
unjoined. -/
theorem c9_notify_filename :
    (wrappedNotify notifyBase notifyFs "a/x/data" 1).1 = some ("x", 1)
    ∧ pathAt notifyFs.dirMap 1 = "a"
    ∧ goJoin (pathAt notifyFs.dirMap 1) "x" = "a/x"
    ∧ ("x" : String) ≠ "a/x" := by
  decide

end Hashmap
